import Mathlib

/-!
Verification development for the smart-commit diff-to-commit-message pipeline.

The TypeScript sources (`src/preprocess.ts` and `src/webview/main.ts`) are
shallowly embedded here.  Strings are modelled as `List Char` (`Str`), and the
JavaScript regular-expression operations used by the code are modelled by
explicit character-level functions:

* `s.toLowerCase()` is modelled ASCII-wise by `lowerChar`/`lowerL`;
* `replace(/[^a-z0-9]+/g, ' ')` followed by `replace(/\s+/g, ' ')` and
  `trim()` collapses each maximal run of non-alphanumeric characters into a
  single space and drops boundary runs; the composite effect is splitting the
  string into maximal alphanumeric words and re-joining them with single
  spaces, which is what `wordsOf`/`joinWords` compute;
* `replace(/\s+/g, ' ').trim()` alone is the same construction with
  "non-whitespace" as the word alphabet;
* `String.prototype.includes` is `containsSub`.

Both UI variants of the normalizer are embedded (the `main.ts` variant with a
minimum and a maximum subject length, and the `preprocess.ts`-file variant
with a minimum only); functions carry a `Web`/`Pre` mark where the two
variants differ.
-/

abbrev Str := List Char

/-- Coerce a Lean string literal to the `List Char` representation. -/
def str (s : String) : Str := s.data

/-- Whitespace test mirroring the JavaScript `\s` class on the characters the
pipeline actually produces (space, tab, carriage return, newline). -/
def isWsChar (c : Char) : Bool := c = ' ' || c = '\t' || c = '\r' || c = '\n'

/-- ASCII lower-casing, the fragment of `toLowerCase` exercised by the code. -/
def lowerChar (c : Char) : Char :=
  if 'A' ≤ c ∧ c ≤ 'Z' then Char.ofNat (c.toNat + 32) else c

/-- ASCII upper-casing, the fragment of `toUpperCase` exercised by the code. -/
def upperChar (c : Char) : Char :=
  if 'a' ≤ c ∧ c ≤ 'z' then Char.ofNat (c.toNat - 32) else c

def lowerL (l : Str) : Str := l.map lowerChar

/-- Character class `[a-z0-9]` of the normalizer's match regex. -/
def keepAlnum (c : Char) : Bool :=
  ('a' ≤ c && c ≤ 'z') || ('0' ≤ c && c ≤ '9')

def isDigitChar (c : Char) : Bool := '0' ≤ c && c ≤ '9'

/-- Negation of whitespace, the word alphabet of `replace(/\s+/g, ' ')`. -/
def notWs (c : Char) : Bool := !isWsChar c

/-- Drop trailing characters satisfying `q` (used for `trim` and for the
trailing-punctuation strip of `trimToMax`). -/
def dropRightWhileP (q : Char → Bool) (l : Str) : Str :=
  (l.reverse.dropWhile q).reverse

/-- JavaScript `String.prototype.trim`. -/
def trimList (l : Str) : Str :=
  dropRightWhileP isWsChar (l.dropWhile isWsChar)

/-! ### Maximal-word splitting -/

/-- Accumulator pass splitting a string into its maximal runs of characters
satisfying `p`; `acc` holds the current word reversed. -/
def wordsAux (p : Char → Bool) : Str → Str → List Str
  | [], acc => if acc.isEmpty then [] else [acc.reverse]
  | c :: rest, acc =>
    if p c then wordsAux p rest (c :: acc)
    else if acc.isEmpty then wordsAux p rest []
    else acc.reverse :: wordsAux p rest []

/-- Maximal runs of characters satisfying `p`, in order. -/
def wordsOf (p : Char → Bool) (l : Str) : List Str := wordsAux p l []

/-- Join words with single spaces (the normal form produced by the collapse
and trim regexes). -/
def joinWords : List Str → Str
  | [] => []
  | [w] => w
  | w :: ws => w ++ ' ' :: joinWords ws

/-- Lower-case, collapse non-alphanumeric runs to single spaces, trim: the
`normalizeForMatch` helper shared by both normalizer variants. -/
def normalizeForMatch (l : Str) : Str := joinWords (wordsOf keepAlnum (lowerL l))

/-- Collapse whitespace runs to single spaces and trim:
`replace(/\s+/g, ' ').trim()`. -/
def collapseWsTrim (l : Str) : Str := joinWords (wordsOf notWs l)

/-! ### Substring predicates -/

/-- Structural "is a contiguous prefix" predicate. -/
def IsPfx (a b : Str) : Prop := ∃ t, a ++ t = b

/-- Structural "is a contiguous suffix" predicate. -/
def IsSfx (a b : Str) : Prop := ∃ s, s ++ a = b

/-- Structural "is a contiguous substring" predicate; this is what the
JavaScript `includes` tests. -/
def IsIfx (a b : Str) : Prop := ∃ s t, s ++ a ++ t = b

/-- Boolean prefix test (JavaScript `startsWith`, and the per-offset step of
`includes`/`indexOf`). -/
def subAt : Str → Str → Bool
  | [], _ => true
  | _ :: _, [] => false
  | c :: p', d :: h' => if c = d then subAt p' h' else false

/-- Boolean substring test (JavaScript `includes`). -/
def containsSub (hay pat : Str) : Bool :=
  match hay with
  | [] => subAt pat []
  | _ :: rest => subAt pat hay || containsSub rest pat

/-! ### Data model

`FileSummary` and `PreprocessResult` mirror the exported types of
`src/preprocess.ts`.  `languageSignals` (a string-keyed map in the source) is
modelled as an association list. -/

inductive ChangeType | added | deleted | modified | renamed | binary
deriving DecidableEq, Repr

structure FileSummary where
  path : Str
  changeType : ChangeType
  additions : Nat
  deletions : Nat
  context : List Str
  highlights : List Str
  keywords : List Str
  weight : Nat
deriving Repr

structure PreprocessResult where
  repoRoot : Str
  files : List FileSummary
  lockfileSummaries : List Str
  languageSignals : List (Str × Nat)
  summaryText : Str
  rawDiff : Str
  truncated : Bool
  totalAdditions : Nat
  totalDeletions : Nat
deriving Repr

/-- Locale switch (`state.lang`). -/
inductive Lang | en | zh
deriving DecidableEq, Repr

inductive SubjectStyle | imperative | sentence
deriving DecidableEq, Repr

/-- Prompt configuration; `prefix`/`suffix` are the optional literal subject
decorations, empty meaning absent (falsy). -/
structure PromptConfig where
  subjectStyle : SubjectStyle
  pfx : Str := []
  sfx : Str := []
deriving Repr

/-! ### Generic string helpers shared by the embedded functions -/

/-- JavaScript `split(sep)` for a single-character separator. -/
def splitOnChar (sep : Char) : Str → List Str
  | [] => [[]]
  | c :: rest =>
    if c = sep then [] :: splitOnChar sep rest
    else
      match splitOnChar sep rest with
      | [] => [[c]]
      | w :: ws => (c :: w) :: ws

/-- `parts[parts.length - 1]` after `split('/')`, i.e. `pop()` of the split:
everything after the last `/` (the whole string when there is none). -/
def basePart (path : Str) : Str := (splitOnChar '/' path).getLastD []

/-- `replace(/^[.#/]+/, '')`. -/
def dropLeadPunct (l : Str) : Str :=
  l.dropWhile (fun c => c = '.' || c = '#' || c = '/')

/-- `replace(/\.[a-z0-9]+$/i, '')`: strip one trailing dot-extension whose
characters are ASCII alphanumerics (the regex is case-insensitive). -/
def isExtChar (c : Char) : Bool :=
  ('a' ≤ c && c ≤ 'z') || ('A' ≤ c && c ≤ 'Z') || ('0' ≤ c && c ≤ '9')

def stripExt (l : Str) : Str :=
  let rev := l.reverse
  let run := rev.takeWhile isExtChar
  if run ≠ [] ∧ (rev.drop run.length).headD ' ' = '.' then
    (rev.drop (run.length + 1)).reverse
  else l

/-- Case-insensitive containment, modelling `/.../i.test(s)` for a literal
pattern. -/
def containsCI (hay pat : Str) : Bool := containsSub (lowerL hay) (lowerL pat)

/-- JavaScript `join(sep)`. -/
def joinWith (sep : Str) : List Str → Str
  | [] => []
  | [w] => w
  | w :: ws => w ++ sep ++ joinWith sep ws

/-! ### Required-token matching (`normalizeForMatch`, `expandTokenVariants`,
`matchRequiredTokens`; identical in both source variants) -/

/-- Set-style insertion used to model the `Set` in `expandTokenVariants`. -/
def addUnique (l : List Str) (s : Str) : List Str :=
  if s ∈ l then l else l ++ [s]

/-- Mirrors `expandTokenVariants`: the trimmed token, the token with leading
`.`/`#`/`/` stripped, its path basename, and the basename without extension,
deduplicated in insertion order. -/
def expandTokenVariants (token : Str) : List Str :=
  let trimmed := trimList token
  if trimmed = [] then []
  else
    let l1 := [trimmed]
    let stripped := dropLeadPunct trimmed
    let l2 := if stripped ≠ [] ∧ stripped ≠ trimmed then addUnique l1 stripped else l1
    let base := basePart trimmed
    let l3 := if base ≠ [] ∧ base ≠ trimmed then addUnique l2 base else l2
    let noExt := stripExt base
    let l4 := if noExt ≠ [] ∧ noExt ≠ base then addUnique l3 noExt else l3
    l4

/-- One token's variant scan inside `matchRequiredTokens`: some variant has a
normalized form of length at least 3 occurring in the normalized subject. -/
def tokenMatches (normSubject : Str) (token : Str) : Bool :=
  (expandTokenVariants token).any fun v =>
    3 ≤ (normalizeForMatch v).length && containsSub normSubject (normalizeForMatch v)

structure MatchResult where
  ok : Bool
  matchedTokens : List Str
deriving Repr

/-- The token-collection loop of `matchRequiredTokens`; `matched` doubles as
the `seen` set since the code adds to both together. -/
def collectMatched (normSubject : Str) : List Str → List Str → List Str
  | [], matched => matched
  | t :: rest, matched =>
    if tokenMatches normSubject t ∧ t ∉ matched then
      collectMatched normSubject rest (matched ++ [t])
    else collectMatched normSubject rest matched

/-- Mirrors `matchRequiredTokens` (both variants): empty token lists always
pass; otherwise at least `max 1 requiredCount` tokens must match. -/
def matchRequiredTokens (subject : Str) (tokens : List Str) (requiredCount : Nat) :
    MatchResult :=
  if tokens = [] then ⟨true, []⟩
  else
    let matched := collectMatched (normalizeForMatch subject) tokens []
    ⟨decide (max 1 requiredCount ≤ matched.length), matched⟩

/-! ### Subject validation predicates (identical in both source variants) -/

/-- Helper: does the plus-digits-slash-minus-digits diff-stat pattern occur at the head of the string? -/
def statAt (l : Str) : Bool :=
  match l with
  | '+' :: r =>
    let ds := r.takeWhile isDigitChar
    if ds = [] then false
    else
      match r.drop ds.length with
      | '/' :: '-' :: r2 => !(r2.takeWhile isDigitChar).isEmpty
      | _ => false
  | _ => false

def anyTailsB (f : Str → Bool) : Str → Bool
  | [] => f []
  | c :: rest => f (c :: rest) || anyTailsB f rest

/-- Mirrors `containsDiffStats`; the parenthesised alternative of the regex is
subsumed by the bare un-parenthesised alternative for a containment test. -/
def containsDiffStats (subject : Str) : Bool :=
  anyTailsB statAt subject || containsCI subject (str "files changed") ||
    containsCI subject (str "lines:")

/-- Mirrors `isTooGeneric` (generic-phrase vocabulary plus the 12-character
minimum). -/
def isTooGeneric (message : Str) : Bool :=
  containsCI message (str "updated implementation details") ||
  containsCI message (str "update logic") ||
  containsCI message (str "multiple files") ||
  containsCI message (str "misc") ||
  containsCI message (str "various") ||
  decide (message.length < 12)

def isGenericHighlight (highlight : Str) : Bool :=
  containsCI highlight (str "updated implementation details") ||
  containsCI highlight (str "update logic") ||
  containsCI highlight (str "logic updated")

def endsWithStr (l pat : Str) : Bool := subAt pat.reverse l.reverse

def startsWithStr (l pat : Str) : Bool := subAt pat l

/-! ### Highlight normalization (`normalizeHighlight`) -/

def isAlphaChar (c : Char) : Bool := ('a' ≤ c && c ≤ 'z') || ('A' ≤ c && c ≤ 'Z')

def isWordChar (c : Char) : Bool := isAlphaChar c || isDigitChar c || c = '_'

/-- Fuel-driven global word-boundary removal, modelling
`replace(/\bword\b/gi, '')`; `prev` is the character preceding the scan
position in the original string. -/
def removeWordCIAux (w : Str) : Nat → Option Char → Str → Str
  | 0, _, l => l
  | _ + 1, _, [] => []
  | fuel + 1, prev, c :: rest =>
    let bl := match prev with | none => true | some d => !isWordChar d
    let region := (c :: rest).take w.length
    let after := (c :: rest).drop w.length
    if bl && (lowerL region == lowerL w) && !isWordChar (after.headD ' ') then
      removeWordCIAux w fuel (some (w.getLastD c)) after
    else c :: removeWordCIAux w fuel (some c) rest

def removeWordCI (w l : Str) : Str := removeWordCIAux w l.length none l

/-- Fuel-driven `replace(/\s{2,}/g, ' ')`: runs of two or more whitespace
characters become one space, lone whitespace characters stay. -/
def collapseWs2Aux : Nat → Str → Str
  | 0, l => l
  | _ + 1, [] => []
  | fuel + 1, c :: rest =>
    if isWsChar c ∧ isWsChar (rest.headD 'x') then
      ' ' :: collapseWs2Aux fuel (rest.dropWhile isWsChar)
    else c :: collapseWs2Aux fuel rest

def collapseWs2Run (l : Str) : Str := collapseWs2Aux l.length l

/-- Mirrors `normalizeHighlight`: strip the whole words `updated`, `touched`,
`file`, collapse double whitespace, trim; fall back to the original when the
result is empty. -/
def normalizeHighlight (h : Str) : Str :=
  let cleaned := trimList (collapseWs2Run
    (removeWordCI (str "file") (removeWordCI (str "touched") (removeWordCI (str "updated") h))))
  if cleaned = [] then h else cleaned

/-- Mirrors `inferDefaultAction`. -/
def inferDefaultAction (filePath : Str) : Str :=
  let lower := lowerL filePath
  if endsWithStr lower (str ".css") || endsWithStr lower (str ".scss") ||
     endsWithStr lower (str ".sass") || endsWithStr lower (str ".less") then str "styles"
  else if containsSub lower (str "cmake") || containsSub lower (str "makefile") ||
     startsWithStr lower (str "build/") || containsSub lower (str "/build/") then
    str "build config"
  else if containsSub lower (str "docs") || containsSub lower (str "readme") ||
     endsWithStr lower (str ".md") then str "docs"
  else []

/-! ### Fragment construction and ranking -/

/-- Ranking score `(additions + deletions) || weight || 0` used by every
`rankedFiles` sort in the source. -/
def rankScore (f : FileSummary) : Nat :=
  if f.additions + f.deletions ≠ 0 then f.additions + f.deletions
  else if f.weight ≠ 0 then f.weight else 0

/-- Stable insertion preserving original order on ties, modelling the
JavaScript stable `sort` by descending `rankScore`. -/
def insertRanked (f : FileSummary) : List FileSummary → List FileSummary
  | [] => [f]
  | g :: rest =>
    if rankScore g ≤ rankScore f then f :: g :: rest else g :: insertRanked f rest

def rankedFilesOf (diff : PreprocessResult) : List FileSummary :=
  diff.files.foldr insertRanked []

/-- Mirrors `buildSubjectFragment`: basename plus up to two details
(keyword, context label, non-generic highlight, or default action). -/
def buildSubjectFragment (file : FileSummary) : Str :=
  let base := basePart file.path
  let keyword := trimList (file.keywords.headD [])
  let details1 : List Str := if keyword ≠ [] then [keyword] else []
  let context := trimList (file.context.headD [])
  let details2 := if context ≠ [] ∧ details1.length < 2 then details1 ++ [context] else details1
  let highlight := file.highlights.find? (fun item => !isGenericHighlight item)
  let cleanedHighlight := match highlight with | some h => normalizeHighlight h | none => []
  let details3 :=
    if cleanedHighlight ≠ [] ∧ details2.length < 2 then details2 ++ [cleanedHighlight]
    else details2
  let details4 :=
    if details3.length < 2 then
      (let fb := inferDefaultAction file.path
       if fb ≠ [] then details3 ++ [fb] else details3)
    else details3
  trimList (base ++ ' ' :: joinWith (str " ") details4)

/-- Mirrors `pickHighlight`: first non-generic highlight of `files[0]`. -/
def pickHighlight (diff : PreprocessResult) : Option Str :=
  match diff.files with
  | [] => none
  | top :: _ =>
    match top.highlights.find? (fun item => !isGenericHighlight item) with
    | none => none
    | some h => if h = [] then none else some (normalizeHighlight h)

/-- Mirrors `applySubjectStyle`: sentence-case capitalizes the first character
in the English locale only. -/
def applySubjectStyle (lang : Lang) (subject : Str) (cfg : PromptConfig) : Str :=
  if cfg.subjectStyle = .sentence ∧ lang = .en then
    match subject with
    | [] => []
    | c :: rest => upperChar c :: rest
  else subject

/-- Mirrors `deriveDetailedSubject`. -/
def deriveDetailedSubject (lang : Lang) (diff : PreprocessResult) (cfg : PromptConfig) : Str :=
  match diff.files with
  | [] => applySubjectStyle lang (str "update implementation") cfg
  | topFile :: _ =>
    let topHighlight := topFile.highlights.headD []
    let topContext := topFile.context.headD []
    let fileBase := basePart topFile.path
    let subject :=
      if topHighlight ≠ [] ∧ !isGenericHighlight topHighlight then
        (if topContext ≠ [] then topHighlight ++ str " in " ++ topContext else topHighlight)
      else if topContext ≠ [] then str "update " ++ topContext
      else str "update " ++ fileBase
    applySubjectStyle lang subject cfg

/-- Mirrors `buildRequiredTokens`'s collection loop over the given files. -/
def buildRequiredTokensRaw : List FileSummary → List Str
  | [] => []
  | file :: rest =>
    let parts := splitOnChar '/' file.path
    let base := parts.getLastD []
    let topDir := if 1 < parts.length then parts.headD [] else []
    ((if base ≠ [] then [base] else []) ++
      ((file.keywords.take 2).filter (· ≠ [])) ++
      ((file.context.take 2).filter (· ≠ [])) ++
      (if topDir ≠ [] ∧ topDir ≠ base then [topDir] else [])) ++
      buildRequiredTokensRaw rest

/-- Mirrors the final `filter` of `buildRequiredTokens`: case-insensitive
dedup (recording even short tokens as seen) keeping tokens longer than one
character. -/
def dedupFilterTokens : List Str → List Str → List Str
  | [], _ => []
  | t :: rest, seen =>
    let n := lowerL t
    if n ∈ seen then dedupFilterTokens rest seen
    else if 1 < t.length then t :: dedupFilterTokens rest (seen ++ [n])
    else dedupFilterTokens rest (seen ++ [n])

def buildRequiredTokens (files : List FileSummary) : List Str :=
  dedupFilterTokens (buildRequiredTokensRaw files) []

/-- Mirrors `buildDetailFragments`: fragments of the top five ranked files. -/
def buildDetailFragments (diff : PreprocessResult) : List Str :=
  (((rankedFilesOf diff).take 5).map buildSubjectFragment).filter (· ≠ [])

/-! ### Length control (`trimToMax`, `ensureSubjectLength`) -/

def fiosAux (pat : Str) : Str → Nat → Option Nat
  | [], i => if subAt pat [] then some i else none
  | c :: rest, i => if subAt pat (c :: rest) then some i else fiosAux pat rest (i + 1)

/-- JavaScript `indexOf`: index of the first occurrence of `pat` in `hay`. -/
def firstIdxOfSub (hay pat : Str) : Option Nat := fiosAux pat hay 0

/-- Safe-separator priority list of `trimToMax` (em-dash with spaces,
full-width comma, semicolon, comma, colon). -/
def trimSeparators : List Str := [str " — ", str "，", str ";", str ",", str ":"]

/-- The separator loop of `trimToMax`: first separator in priority order whose
first occurrence lies in the window and leaves a trimmed cut of at least 10
characters. -/
def findSepCut (v : Str) (m : Nat) : List Str → Option Nat
  | [] => none
  | sep :: rest =>
    match firstIdxOfSub v sep with
    | some i =>
      if 0 < i ∧ i ≤ m ∧ 10 ≤ (trimList (v.take i)).length then some i
      else findSepCut v m rest
    | none => findSepCut v m rest

/-- Trailing-junk class of `trimToMax`'s hard-truncation strip. -/
def isTrailJunk (c : Char) : Bool :=
  c = '，' || c = ',' || c = ';' || c = ':' || c = '-' || c = '–' || c = '—' || isWsChar c

/-- Mirrors `trimToMax` (webview variant). -/
def trimToMax (v : Str) (m : Nat) : Str :=
  if m = 0 ∨ v.length ≤ m then v
  else
    match findSepCut v m trimSeparators with
    | some i => trimList (v.take i)
    | none => trimList (dropRightWhileP isTrailJunk (v.take m))

/-- The fragment-appending loop of the webview `ensureSubjectLength`,
breaking before any candidate that would exceed the maximum. -/
def expandLoop (candidate tokenSnippet pfxStr joiner : Str) (maxLength : Nat) :
    List Str → Str → Str
  | [], appended => appended
  | frag :: rest, appended =>
    let next := if appended = [] then frag else appended ++ joiner ++ frag
    let nextCandidate := collapseWsTrim (candidate ++ pfxStr ++ next ++ tokenSnippet)
    if 0 < maxLength ∧ maxLength < nextCandidate.length then appended
    else expandLoop candidate tokenSnippet pfxStr joiner maxLength rest next

/-- Mirrors the webview `ensureSubjectLength` (minimum and maximum bound). -/
def ensureSubjectLengthWeb (lang : Lang) (subject : Str) (diff : PreprocessResult)
    (requiredTokens : List Str) (minLength maxLength : Nat) : Str :=
  let candidate :=
    if 0 < maxLength ∧ maxLength < subject.length then trimToMax subject maxLength
    else subject
  if minLength = 0 ∨ minLength ≤ candidate.length then candidate
  else
    let fragments := buildDetailFragments diff
    let tokenSnippet :=
      if requiredTokens ≠ [] then ' ' :: joinWith (str ", ") (requiredTokens.take 4) else []
    let joiner := if lang = .zh then str "；" else str "; "
    let pfxStr := if lang = .zh then str "，涉及：" else str " — "
    let appended := expandLoop candidate tokenSnippet pfxStr joiner maxLength fragments []
    let expanded :=
      if appended ≠ [] then collapseWsTrim (candidate ++ pfxStr ++ appended ++ tokenSnippet)
      else candidate
    if 0 < minLength ∧ expanded.length < minLength ∧ tokenSnippet ≠ [] ∧
        !(containsSub expanded (trimList tokenSnippet)) then
      let padded := collapseWsTrim (expanded ++ tokenSnippet)
      if 0 < maxLength then trimToMax padded maxLength else padded
    else expanded

/-- Mirrors the preprocess-file `ensureSubjectLength` (minimum bound only). -/
def ensureSubjectLengthPre (lang : Lang) (subject : Str) (diff : PreprocessResult)
    (requiredTokens : List Str) (minLength : Nat) : Str :=
  if minLength = 0 ∨ minLength ≤ subject.length then subject
  else
    let fragments := buildDetailFragments diff
    let tokenSnippet :=
      if requiredTokens ≠ [] then ' ' :: joinWith (str ", ") (requiredTokens.take 6) else []
    let sepStr := if lang = .zh then str "；" else str "; "
    let detailText := if fragments ≠ [] then joinWith sepStr fragments else []
    let pfxStr := if lang = .zh then str "，涉及：" else str " — details: "
    let expanded := collapseWsTrim (subject ++ pfxStr ++ detailText ++ tokenSnippet)
    if expanded.length < minLength ∧ 2 < fragments.length then
      collapseWsTrim (subject ++ pfxStr ++ joinWith sepStr (fragments.take 4) ++ tokenSnippet)
    else expanded

/-! ### Deterministic subject synthesis (`buildSpecificSubject`) -/

/-- Mirrors the preprocess-file `buildSpecificSubject`. -/
def buildSpecificSubjectPre (lang : Lang) (diff : PreprocessResult)
    (requiredTokens : List Str) (requiredTokenCount : Nat) (cfg : PromptConfig)
    (minSubjectLength : Nat) : Str :=
  let tokens := requiredTokens.filter (· ≠ [])
  let rankedFiles := rankedFilesOf diff
  let primaryFragment := match rankedFiles with | [] => [] | p :: _ => buildSubjectFragment p
  let secondaryFragment :=
    match rankedFiles with | _ :: s :: _ => buildSubjectFragment s | _ => []
  let fallbackHighlight := pickHighlight diff
  if primaryFragment = [] then
    let base := deriveDetailedSubject lang diff cfg
    if tokens = [] then base
    else
      let preferred := tokens.headD []
      let subject :=
        match fallbackHighlight with
        | some h => (if lang = .zh then str "更新 " else str "update ") ++ preferred ++ ' ' :: h
        | none => (if lang = .zh then str "更新 " else str "update ") ++ preferred
      applySubjectStyle lang subject cfg
  else if 1 < requiredTokenCount ∧ (secondaryFragment ≠ [] ∨ 2 ≤ tokens.length) then
    let secondPair := if secondaryFragment ≠ [] then secondaryFragment else tokens.getD 1 []
    let subject :=
      if lang = .zh then str "更新 " ++ primaryFragment ++ str " 与 " ++ secondPair
      else str "update " ++ primaryFragment ++ str " and " ++ secondPair
    applySubjectStyle lang
      (if 0 < minSubjectLength then
        ensureSubjectLengthPre lang subject diff requiredTokens minSubjectLength
      else subject) cfg
  else
    let subject := (if lang = .zh then str "更新 " else str "update ") ++ primaryFragment
    applySubjectStyle lang
      (if 0 < minSubjectLength then
        ensureSubjectLengthPre lang subject diff requiredTokens minSubjectLength
      else subject) cfg

/-- Mirrors the webview `buildSpecificSubject` (minimum and maximum bound). -/
def buildSpecificSubjectWeb (lang : Lang) (diff : PreprocessResult)
    (requiredTokens : List Str) (requiredTokenCount : Nat) (cfg : PromptConfig)
    (minSubjectLength maxSubjectLength : Nat) : Str :=
  let tokens := requiredTokens.filter (· ≠ [])
  let rankedFiles := rankedFilesOf diff
  let primaryFragment := match rankedFiles with | [] => [] | p :: _ => buildSubjectFragment p
  let secondaryFragment :=
    match rankedFiles with | _ :: s :: _ => buildSubjectFragment s | _ => []
  let fallbackHighlight := pickHighlight diff
  if primaryFragment = [] then
    let base := deriveDetailedSubject lang diff cfg
    if tokens = [] then base
    else
      let preferred := tokens.headD []
      let subject :=
        match fallbackHighlight with
        | some h => (if lang = .zh then str "更新 " else str "update ") ++ preferred ++ ' ' :: h
        | none => (if lang = .zh then str "更新 " else str "update ") ++ preferred
      applySubjectStyle lang subject cfg
  else if 1 < requiredTokenCount ∧ (secondaryFragment ≠ [] ∨ 2 ≤ tokens.length) then
    let secondPair := if secondaryFragment ≠ [] then secondaryFragment else tokens.getD 1 []
    let subject :=
      if lang = .zh then str "更新 " ++ primaryFragment ++ str " 与 " ++ secondPair
      else str "update " ++ primaryFragment ++ str " and " ++ secondPair
    applySubjectStyle lang
      (if 0 < minSubjectLength ∨ 0 < maxSubjectLength then
        ensureSubjectLengthWeb lang subject diff requiredTokens minSubjectLength maxSubjectLength
      else subject) cfg
  else
    let subject := (if lang = .zh then str "更新 " else str "update ") ++ primaryFragment
    applySubjectStyle lang
      (if 0 < minSubjectLength ∨ 0 < maxSubjectLength then
        ensureSubjectLengthWeb lang subject diff requiredTokens minSubjectLength maxSubjectLength
      else subject) cfg

/-! ### Subject validation and resolution (`ensureSpecificSubject`) -/

/-- Mirrors the webview `ensureSpecificSubject`.  The decisive line is
`needsFallback = reasons.some(reason => reason !== 'tooShort')`: shortness
alone does not trigger synthesis in this variant. -/
def ensureSpecificSubjectWeb (lang : Lang) (subject : Str) (requiredTokens : List Str)
    (requiredTokenCount : Nat) (minSubjectLength maxSubjectLength : Nat)
    (diff : PreprocessResult) (cfg : PromptConfig) : Str :=
  let cleaned := trimList subject
  let tokenMatch := matchRequiredTokens cleaned requiredTokens requiredTokenCount
  let reasons : List Str :=
    (if cleaned = [] then [str "empty"] else []) ++
    (if !tokenMatch.ok then [str "missingTokens"] else []) ++
    (if isTooGeneric cleaned then [str "generic"] else []) ++
    (if containsDiffStats cleaned then [str "diffStats"] else []) ++
    (if 0 < minSubjectLength ∧ cleaned.length < minSubjectLength then [str "tooShort"] else [])
  let needsFallback := reasons.any (fun r => !(r == str "tooShort"))
  if needsFallback then
    buildSpecificSubjectWeb lang diff requiredTokens requiredTokenCount cfg
      minSubjectLength maxSubjectLength
  else
    applySubjectStyle lang
      (if 0 < minSubjectLength ∨ 0 < maxSubjectLength then
        ensureSubjectLengthWeb lang cleaned diff requiredTokens minSubjectLength maxSubjectLength
      else cleaned) cfg

/-- Mirrors the preprocess-file `ensureSpecificSubject`.  Here the decisive
line is `needsFallback = reasons.length > 0`: any reason, including
`tooShort`, triggers synthesis. -/
def ensureSpecificSubjectPre (lang : Lang) (subject : Str) (requiredTokens : List Str)
    (requiredTokenCount : Nat) (minSubjectLength : Nat)
    (diff : PreprocessResult) (cfg : PromptConfig) : Str :=
  let cleaned := trimList subject
  let tokenMatch := matchRequiredTokens cleaned requiredTokens requiredTokenCount
  let reasons : List Str :=
    (if cleaned = [] then [str "empty"] else []) ++
    (if !tokenMatch.ok then [str "missingTokens"] else []) ++
    (if isTooGeneric cleaned then [str "generic"] else []) ++
    (if containsDiffStats cleaned then [str "diffStats"] else []) ++
    (if 0 < minSubjectLength ∧ cleaned.length < minSubjectLength then [str "tooShort"] else [])
  let needsFallback := reasons.length > 0
  if needsFallback then
    buildSpecificSubjectPre lang diff requiredTokens requiredTokenCount cfg minSubjectLength
  else
    applySubjectStyle lang
      (if 0 < minSubjectLength then
        ensureSubjectLengthPre lang cleaned diff requiredTokens minSubjectLength
      else cleaned) cfg

/-! ### Type and scope derivation (`deriveType`, `deriveScope`) -/

/-- Per-file weight of the type classifier:
`(additions + deletions) || weight || 1`. -/
def typeScore (f : FileSummary) : Nat :=
  if f.additions + f.deletions ≠ 0 then f.additions + f.deletions
  else if f.weight ≠ 0 then f.weight else 1

def testRule (path : Str) : Bool :=
  containsSub (lowerL path) (str "test") || containsSub (lowerL path) (str "spec")

def docsRule (path : Str) : Bool :=
  containsSub (lowerL path) (str "docs") || containsSub (lowerL path) (str "readme") ||
    endsWithStr (lowerL path) (str ".md")

def configRule (path : Str) : Bool :=
  containsSub (lowerL path) (str "config") ||
  endsWithStr (lowerL path) (str ".yml") ||
  endsWithStr (lowerL path) (str ".yaml") ||
  endsWithStr (lowerL path) (str ".json") ||
  endsWithStr (lowerL path) (str ".toml") ||
  endsWithStr (lowerL path) (str ".ini") ||
  containsSub (lowerL path) (str "cmake") ||
  containsSub (lowerL path) (str "makefile") ||
  startsWithStr (lowerL path) (str "dist/") ||
  containsSub (lowerL path) (str "/dist/") ||
  startsWithStr (lowerL path) (str "build/") ||
  containsSub (lowerL path) (str "/build/")

/-- The accumulation loop of `deriveType`, returning
(test, docs, config, code, total) weights. -/
def deriveTypeLoop : List FileSummary → Nat × Nat × Nat × Nat × Nat
  | [] => (0, 0, 0, 0, 0)
  | f :: rest =>
    let r := deriveTypeLoop rest
    let w := typeScore f
    if testRule f.path then (r.1 + w, r.2.1, r.2.2.1, r.2.2.2.1, r.2.2.2.2 + w)
    else if docsRule f.path then (r.1, r.2.1 + w, r.2.2.1, r.2.2.2.1, r.2.2.2.2 + w)
    else if configRule f.path then (r.1, r.2.1, r.2.2.1 + w, r.2.2.2.1, r.2.2.2.2 + w)
    else (r.1, r.2.1, r.2.2.1, r.2.2.2.1 + w, r.2.2.2.2 + w)

/-- Mirrors `deriveType`.  The source compares `value / total > 0.5` in
floating point with `ratio` defined as 0 when `total` is 0; over the
nonnegative integers involved this is `2 * value > total` in exact
arithmetic, which is how the comparison is embedded. -/
def deriveType (diff : PreprocessResult) : Str :=
  let r := deriveTypeLoop diff.files
  if r.2.2.2.2 < 2 * r.1 then str "test"
  else if r.2.2.2.2 < 2 * r.2.1 then str "docs"
  else if r.2.2.2.2 < 2 * r.2.2.1 then str "chore"
  else if diff.totalAdditions < diff.totalDeletions then str "refactor"
  else str "feat"

/-- Mirrors `deriveScope`: first path segment when the path has more than one
segment, else `core`. -/
def deriveScope (filePath : Str) : Str :=
  let parts := splitOnChar '/' filePath
  if 1 < parts.length then parts.headD [] else str "core"

/-- The scope-hint expression of both `generateCommitMessage` variants:
`diff.files[0] ? deriveScope(diff.files[0].path) : 'repo'`. -/
def scopeHintOf (diff : PreprocessResult) : Str :=
  match diff.files with
  | [] => str "repo"
  | f :: _ => deriveScope f.path

/-- Mirrors `generateFallbackMessage` (preprocess-file variant). -/
def generateFallbackMessage (lang : Lang) (diff : PreprocessResult)
    (cfg : PromptConfig) : Str :=
  let scope := match diff.files with | [] => str "repo" | top :: _ => deriveScope top.path
  let ty := deriveType diff
  let subject := deriveDetailedSubject lang diff cfg
  ty ++ str "(" ++ scope ++ str "): " ++ subject

/-- Mirrors `applyPromptConfig` (preprocess-file variant): glue the optional
literal decorations around the message. -/
def applyPromptConfigPre (message : Str) (cfg : PromptConfig) : Str :=
  let withPfx :=
    if cfg.pfx ≠ [] then trimList (cfg.pfx ++ ' ' :: message) else trimList message
  if cfg.sfx ≠ [] then trimList (withPfx ++ ' ' :: cfg.sfx) else withPfx

/-! ### Commit-line parsing and normalization (preprocess-file variant) -/

structure ParsedCommit where
  ty : Option Str
  scope : Option Str
  subject : Option Str
deriving Repr

/-- The trailing part of the commit-line regex: greedy whitespace skip, then a
nonempty single-line remainder up to end of string (the regex has no
multi-line or dot-all flag, so a remaining newline defeats the match and an
all-whitespace tail backtracks to its final non-newline character). -/
def subjectPartOf (r : Str) : Option Str :=
  let rem := r.dropWhile isWsChar
  if rem ≠ [] then (if rem.contains '\n' then none else some rem)
  else
    match r.getLast? with
    | some c => if c = '\n' then none else some [c]
    | none => none

/-- Mirrors `parseCommitMessage` and its anchored regex
`^([a-zA-Z][\w-]*)(?:\(([^)]+)\))?:\s*(.+)$` over the trimmed message. -/
def parseCommitMessage (message : Str) : ParsedCommit :=
  match trimList message with
  | [] => ⟨none, none, none⟩
  | c :: rest =>
    if isAlphaChar c then
      let tyChars := c :: rest.takeWhile (fun d => isWordChar d || d = '-')
      let r1 := rest.dropWhile (fun d => isWordChar d || d = '-')
      match r1 with
      | '(' :: r2 =>
        let inner := r2.takeWhile (· ≠ ')')
        let r3 := r2.dropWhile (· ≠ ')')
        (match r3 with
         | ')' :: ':' :: r4 =>
           if inner ≠ [] then
             match subjectPartOf r4 with
             | some sub => ⟨some tyChars, some inner, some sub⟩
             | none => ⟨none, none, none⟩
           else ⟨none, none, none⟩
         | _ => ⟨none, none, none⟩)
      | ':' :: r4 =>
        (match subjectPartOf r4 with
         | some sub => ⟨some tyChars, none, some sub⟩
         | none => ⟨none, none, none⟩)
      | _ => ⟨none, none, none⟩
    else ⟨none, none, none⟩

/-- Length of a diff-stat occurrence at the head of the string, for the
global removals in `stripSubjectNoise`. -/
def statMatchLen (l : Str) : Option Nat :=
  match l with
  | '+' :: r =>
    let ds := r.takeWhile isDigitChar
    if ds = [] then none
    else
      match r.drop ds.length with
      | '/' :: '-' :: r2 =>
        let ds2 := r2.takeWhile isDigitChar
        if ds2 = [] then none else some (1 + ds.length + 2 + ds2.length)
      | _ => none
  | _ => none

/-- Length of a parenthesised diff-stat occurrence at the head. -/
def statParenLen (l : Str) : Option Nat :=
  match l with
  | '(' :: r =>
    (match statMatchLen r with
     | some k => (match r.drop k with | ')' :: _ => some (k + 2) | _ => none)
     | none => none)
  | _ => none

/-- Fuel-driven global removal of every occurrence reported by `f`. -/
def removeAllAux (f : Str → Option Nat) : Nat → Str → Str
  | 0, l => l
  | _ + 1, [] => []
  | fuel + 1, c :: rest =>
    match f (c :: rest) with
    | some k => removeAllAux f fuel ((c :: rest).drop k)
    | none => c :: removeAllAux f fuel rest

def removeAll (f : Str → Option Nat) (l : Str) : Str := removeAllAux f l.length l

/-- Mirrors `stripSubjectNoise` (preprocess-file variant). -/
def stripSubjectNoisePre (subject : Str) : Str :=
  trimList (collapseWs2Run (removeAll statMatchLen (removeAll statParenLen subject)))

/-- Mirrors `formatCommitLine`. -/
def formatCommitLine (ty scope subject : Str) : Str :=
  ty ++ str "(" ++ scope ++ str "): " ++ collapseWsTrim subject

structure NormalizeOptionsPre where
  message : Str
  typeHint : Str
  scopeHint : Str
  requiredTokens : List Str
  requiredTokenCount : Nat
  minSubjectLength : Nat
  diff : PreprocessResult
  promptConfig : PromptConfig

/-- Mirrors `normalizeCommitMessage` (preprocess-file variant). -/
def normalizeCommitMessagePre (lang : Lang) (o : NormalizeOptionsPre) : Str :=
  let parsed := parseCommitMessage o.message
  let subjectRaw := stripSubjectNoisePre (parsed.subject.getD o.message)
  let subject := ensureSpecificSubjectPre lang subjectRaw o.requiredTokens
    o.requiredTokenCount o.minSubjectLength o.diff o.promptConfig
  let scope :=
    match parsed.scope with
    | some s => if trimList s ≠ [] then trimList s else o.scopeHint
    | none => o.scopeHint
  formatCommitLine o.typeHint scope subject

def backtickChar : Char := Char.ofNat 96

def isQuoteChar (c : Char) : Bool := c = '"' || c = '\'' || c = backtickChar

def stripTrailCr (l : Str) : Str :=
  match l.getLast? with
  | some c => if c = '\r' then l.dropLast else l
  | none => l

/-- JavaScript split on the carriage-return-optional newline pattern. -/
def splitCrLf (l : Str) : List Str :=
  let chunks := splitOnChar '\n' l
  chunks.dropLast.map stripTrailCr ++ [chunks.getLastD []]

/-- Leading bullet strip `replace(/^[-*]\s+/, '')`. -/
def stripBulletWs (l : Str) : Str :=
  match l with
  | [] => []
  | c :: rest =>
    if (c = '-' || c = '*') ∧ isWsChar (rest.headD 'x') then rest.dropWhile isWsChar
    else c :: rest

/-- Mirrors `sanitizeCommitMessage` (preprocess-file variant): first nonblank
line, bullet and quote strips, trims. -/
def sanitizeCommitMessage (raw : Str) : Str :=
  if raw = [] then []
  else
    let firstLine := ((splitCrLf raw).find? (fun line => !(trimList line).isEmpty)).getD []
    let trimmed := trimList (stripBulletWs firstLine)
    trimList (dropRightWhileP isQuoteChar (trimmed.dropWhile isQuoteChar))

/-! ### Lockfile summarizer (`summarizeLockfile`) -/

def natToStr (n : Nat) : Str := Nat.toDigits 10 n

/-- Node `path.basename` on the file paths handed to the summarizer: the last
path segment after ignoring trailing slashes. -/
def nodeBasename (p : Str) : Str :=
  basePart (dropRightWhileP (· = '/') p)

/-- Version-field test of the lockfile scan:
`/version:/i.test(t) || /"version"\s*:/i.test(t)`. -/
def qvAt (l : Str) : Bool :=
  match l with
  | '"' :: rest =>
    if startsWithStr (lowerL rest) (str "version") then
      match rest.drop 7 with
      | '"' :: r2 =>
        (match r2.dropWhile isWsChar with
         | ':' :: _ => true
         | _ => false)
      | _ => false
    else false
  | _ => false

def versionFieldTest (t : Str) : Bool :=
  containsCI t (str "version:") || anyTailsB qvAt t

/-- Package-name extraction `t.match(/\/(.+?)@/)`: the capture runs from the
first slash that is followed, at distance at least two, by an at-sign, up to
the first such at-sign (dot matches anything on these single-line inputs). -/
def captureUpToAt : Str → Option Str
  | [] => none
  | '@' :: _ => some []
  | c :: r => (captureUpToAt r).map (c :: ·)

def pkgFromLine : Str → Option Str
  | [] => none
  | c :: rest =>
    if c = '/' then
      match rest with
      | [] => none
      | d :: r2 =>
        match captureUpToAt r2 with
        | some cap => some (d :: cap)
        | none => pkgFromLine rest
    else pkgFromLine rest

/-- One step of the line scan of `summarizeLockfile`: version-field
additions and removals and the insertion-ordered package-name set, updated
as the source loop body does for one line. -/
def lockStep (acc : Nat × Nat × List Str) (line : Str) : Nat × Nat × List Str :=
  match line with
  | [] => acc
  | m :: tail =>
    if m = '+' ∨ m = '-' then
      let hasVersion := versionFieldTest tail
      let av := if hasVersion ∧ m = '+' then acc.1 + 1 else acc.1
      let rv := if hasVersion ∧ m = '-' then acc.2.1 + 1 else acc.2.1
      let pkgs :=
        match pkgFromLine tail with
        | some name => if name ∈ acc.2.2 then acc.2.2 else acc.2.2 ++ [name]
        | none => acc.2.2
      (av, rv, pkgs)
    else acc

/-- The line scan of `summarizeLockfile`, accumulated left to right as the
source loop does. -/
def lockScanL (lines : List Str) : Nat × Nat × List Str :=
  lines.foldl lockStep (0, 0, [])

/-- Insertion-ordered set accumulation, the behaviour of `Set.add` in the
scan loop, started from an arbitrary already-collected list. -/
def foldlDedup (p : List Str) (xs : List Str) : List Str :=
  xs.foldl (fun acc x => if x ∈ acc then acc else acc ++ [x]) p

/-- Mirrors `summarizeLockfile`. -/
def summarizeLockfile (block : Str) (filePath : Str) : List Str :=
  let basename := nodeBasename filePath
  let lines := splitOnChar '\n' block
  let scan := lockScanL lines
  let addVersions := scan.1
  let removeVersions := scan.2.1
  let packages := scan.2.2
  let totalUpdates := max (max addVersions removeVersions) packages.length
  if totalUpdates = 0 then [basename ++ str ": lockfile updated"]
  else
    let pkgSnippet :=
      if 0 < packages.length then
        str " (" ++ joinWith (str ", ") (packages.take 3) ++
          (if 3 < packages.length then str ", ..." else []) ++ str ")"
      else []
    [basename ++ str ": " ++ natToStr totalUpdates ++ str " version entries updated" ++
      pkgSnippet]

/-! ### Line reconciliation (`parseDiffLines`) -/

/-- Association-list model of the JavaScript `Map<string, number>` used for
the removed-line multiset; `set` keeps the original key position. -/
abbrev CountMap := List (Str × Nat)

def cmGet : CountMap → Str → Nat
  | [], _ => 0
  | (k', v) :: rest, k => if k' = k then v else cmGet rest k

def cmSet : CountMap → Str → Nat → CountMap
  | [], k, v => [(k, v)]
  | (k', v') :: rest, k, v =>
    if k' = k then (k', v) :: rest else (k', v') :: cmSet rest k v

/-- Mirrors `normalizeLine`: collapse whitespace and trim. -/
def normalizeLine (l : Str) : Str := collapseWsTrim l

/-- First  hunk-header line number: the regex scan for a plus sign followed by
digits inside an `@@` line. -/
def findHunkNum : Str → Option Nat
  | [] => none
  | c :: rest =>
    if c = '+' then
      let ds := rest.takeWhile isDigitChar
      if ds = [] then findHunkNum rest
      else some (ds.foldl (fun n d => n * 10 + (d.toNat - 48)) 0)
    else findHunkNum rest

/-- The line-classification loop of `parseDiffLines`: counts, added and
removed line bodies, and hunk starts, in source order. -/
def classifyLines : List Str → Nat × Nat × List Str × List Str × List Nat
  | [] => (0, 0, [], [], [])
  | line :: rest =>
    let r := classifyLines rest
    if startsWithStr line (str "@@") then
      (r.1, r.2.1, r.2.2.1, r.2.2.2.1,
        (match findHunkNum line with | some n => n :: r.2.2.2.2 | none => r.2.2.2.2))
    else if startsWithStr line (str "+++") || startsWithStr line (str "---") then r
    else if startsWithStr line (str "+") then
      (r.1 + 1, r.2.1, line.drop 1 :: r.2.2.1, r.2.2.2.1, r.2.2.2.2)
    else if startsWithStr line (str "-") then
      (r.1, r.2.1 + 1, r.2.2.1, line.drop 1 :: r.2.2.2.1, r.2.2.2.2)
    else r

/-- Build the removed-line multiset map. -/
def buildRemovedMap (removed : List Str) : CountMap :=
  removed.foldl (fun m line =>
    let k := normalizeLine line
    cmSet m k (cmGet m k + 1)) []

/-- The added-line cancellation pass: drop lines whose normalized form still
has remaining count, keep the rest in order. -/
def consumeAdded : List Str → CountMap → List Str × CountMap
  | [], m => ([], m)
  | line :: rest, m =>
    let k := normalizeLine line
    let c := cmGet m k
    if 0 < c then consumeAdded rest (cmSet m k (c - 1))
    else
      let r := consumeAdded rest m
      (line :: r.1, r.2)

structure DiffLineResult where
  additions : Nat
  deletions : Nat
  cleanedLines : List Str
  hunkStarts : List Nat
  addedLines : List Str
  removedLines : List Str
deriving Repr

/-- Mirrors `parseDiffLines`: classify lines, cancel relocated lines through
the removed-line multiset, then retain surviving removals marked with a
leading dash. -/
def parseDiffLines (block : Str) : DiffLineResult :=
  let lines := splitOnChar '\n' block
  let cls := classifyLines lines
  let added := cls.2.2.1
  let removed := cls.2.2.2.1
  let m := buildRemovedMap removed
  let consumed := consumeAdded added m
  { additions := cls.1
    deletions := cls.2.1
    cleanedLines :=
      consumed.1 ++ (consumed.2.filter (fun e => 0 < e.2)).map (fun e => '-' :: e.1)
    hunkStarts := cls.2.2.2.2
    addedLines := added
    removedLines := removed }

/-! ### Generation runner (`generateCommitMessage`, preprocess-file variant)

The model-invocation call and the cooperative cancellation signal are
abstracted into an environment describing one run: the outcome of the
streaming call, the outcome of the non-streaming retry, and the observed
state of the abort signal at each point the code touches it (entry, the
catch handler, the moment the retry resolves, and the final check).  The
signal is monotone: once aborted it stays aborted, captured by `MonoEnv`. -/

inductive StreamResult
  | completed (content : Str)
  | abortedMid
  | failed
deriving DecidableEq, Repr

structure GenEnv where
  abortAtEntry : Bool
  stream : StreamResult
  abortAtCatch : Bool
  retry : Option Str
  abortAtRetryEnd : Bool
  abortAtFinal : Bool
deriving DecidableEq, Repr

/-- Monotonicity of the abort signal along the run, plus the fact that an
abort-triggered throw inside the streaming loop is observed as aborted by the
catch handler. -/
def MonoEnv (env : GenEnv) : Prop :=
  (env.abortAtEntry = true → env.abortAtCatch = true) ∧
  (env.stream = .abortedMid → env.abortAtCatch = true) ∧
  (env.abortAtCatch = true → env.abortAtRetryEnd = true) ∧
  (env.abortAtRetryEnd = true → env.abortAtFinal = true)

inductive RunOutcome
  | raised
  | returned (msg : Str)
deriving DecidableEq, Repr

/-- Prompt-derivation constants of `generateCommitMessage`
(preprocess-file variant). -/
def requiredTokenCountOf (diff : PreprocessResult) : Nat :=
  if 10 < diff.files.length then 2 else 1

/-- `changeMagnitude = files.length + Math.round((adds + dels) / 200)`;
rounding half away from zero on nonnegative values is `(n + 100) / 200` in
integer arithmetic. -/
def minSubjectLengthOf (diff : PreprocessResult) : Nat :=
  if 10 ≤ diff.files.length + (diff.totalAdditions + diff.totalDeletions + 100) / 200
  then 300 else 0

/-- The post-stream tail of the happy path: sanitize, fall back on empty,
normalize, decorate. -/
def finishGenerate (lang : Lang) (diff : PreprocessResult) (cfg : PromptConfig)
    (content : Str) : Str :=
  let sanitized := sanitizeCommitMessage content
  let finalMessage := if sanitized = [] then generateFallbackMessage lang diff cfg
    else sanitized
  let normalized := normalizeCommitMessagePre lang
    { message := finalMessage
      typeHint := deriveType diff
      scopeHint := scopeHintOf diff
      requiredTokens := buildRequiredTokens ((rankedFilesOf diff).take 3)
      requiredTokenCount := requiredTokenCountOf diff
      minSubjectLength := minSubjectLengthOf diff
      diff := diff
      promptConfig := cfg }
  applyPromptConfigPre normalized cfg

/-- Mirrors the control flow of `generateCommitMessage` (preprocess-file
variant): entry abort check, streaming attempt, catch handler that rethrows
on abort and otherwise performs exactly one non-streaming retry with the same
prompt, local fallback when the retry also fails, and the final abort check.
The second component counts non-streaming retry invocations. -/
def runGenerate (lang : Lang) (env : GenEnv) (diff : PreprocessResult)
    (cfg : PromptConfig) : RunOutcome × Nat :=
  if env.abortAtEntry then (.raised, 0)
  else
    match env.stream with
    | .completed content =>
      if env.abortAtFinal then (.raised, 0)
      else (.returned (finishGenerate lang diff cfg content), 0)
    | .abortedMid =>
      if env.abortAtCatch then (.raised, 0)
      else
        match env.retry with
        | some content =>
          if env.abortAtFinal then (.raised, 1)
          else (.returned (finishGenerate lang diff cfg content), 1)
        | none => (.returned (applyPromptConfigPre (generateFallbackMessage lang diff cfg) cfg), 1)
    | .failed =>
      if env.abortAtCatch then (.raised, 0)
      else
        match env.retry with
        | some content =>
          if env.abortAtFinal then (.raised, 1)
          else (.returned (finishGenerate lang diff cfg content), 1)
        | none => (.returned (applyPromptConfigPre (generateFallbackMessage lang diff cfg) cfg), 1)

/-- Whether the abort signal was raised at some point before the run
concluded, along the path the run actually took. -/
def cancelledDuring (env : GenEnv) : Bool :=
  if env.abortAtEntry then true
  else
    match env.stream with
    | .completed _ => env.abortAtFinal
    | .abortedMid => true
    | .failed =>
      if env.abortAtCatch then true
      else
        match env.retry with
        | some _ => env.abortAtFinal
        | none => env.abortAtRetryEnd

/-! ### Specification-side definitions

These re-state, in the spec's own vocabulary, the behaviours the claims
describe; the claim theorems compare them with the source embeddings. -/

/-- Spec wording of token matching: exactly four variants — the (trimmed)
token, the token with leading dot, hash or slash stripped, its path basename,
and that basename without extension — and a token matches when some variant's
normalized form has at least 3 characters and occurs in the normalized
subject. -/
def fourVariantMatch (subject token : Str) : Bool :=
  let trimmed := trimList token
  [trimmed, dropLeadPunct trimmed, basePart trimmed, stripExt (basePart trimmed)].any
    fun v =>
      3 ≤ (normalizeForMatch v).length &&
        containsSub (normalizeForMatch subject) (normalizeForMatch v)

/-- Spec wording of the scope rule: the top-level directory of the path, or
`core` when the path has no directory component. -/
def specScope (path : Str) : Str :=
  if '/' ∈ path then path.takeWhile (· ≠ '/') else str "core"

/-- Path buckets of the type classifier, first matching rule wins. -/
inductive Bucket | test | docs | config | code
deriving DecidableEq, Repr

def bucketOf (path : Str) : Bucket :=
  if testRule path then .test
  else if docsRule path then .docs
  else if configRule path then .config
  else .code

/-- Spec wording of the weighted classification: total weight of the files in
one bucket. -/
def bucketWeight (b : Bucket) (files : List FileSummary) : Nat :=
  ((files.filter fun f => bucketOf f.path == b).map typeScore).sum

def totalWeight (files : List FileSummary) : Nat := (files.map typeScore).sum

/-- Spec wording of `deriveType`: a bucket whose weight share exceeds one half
fixes the type, else deletions-exceed-additions means refactor, else feat. -/
def specDeriveType (diff : PreprocessResult) : Str :=
  if totalWeight diff.files < 2 * bucketWeight .test diff.files then str "test"
  else if totalWeight diff.files < 2 * bucketWeight .docs diff.files then str "docs"
  else if totalWeight diff.files < 2 * bucketWeight .config diff.files then str "chore"
  else if diff.totalAdditions < diff.totalDeletions then str "refactor"
  else str "feat"

/-- Spec wording of the lockfile scan: number of added lines carrying a
version field. -/
def specLockAdds (lines : List Str) : Nat :=
  (lines.filter fun l =>
    match l with
    | m :: t => decide (m = '+') && versionFieldTest t
    | [] => false).length

/-- Spec wording: number of removed lines carrying a version field. -/
def specLockRemovals (lines : List Str) : Nat :=
  (lines.filter fun l =>
    match l with
    | m :: t => decide (m = '-') && versionFieldTest t
    | [] => false).length

/-- All package names extracted from changed lines, in scan order with
repetitions. -/
def pkgList (lines : List Str) : List Str :=
  lines.filterMap fun l =>
    match l with
    | m :: t => if m = '+' ∨ m = '-' then pkgFromLine t else none
    | [] => none

/-- First-occurrence deduplication, the iteration order of a JavaScript
`Set`. -/
def dedupKeepFirst : List Str → List Str
  | [] => []
  | x :: rest => x :: (dedupKeepFirst rest).filter (fun y => !(y == x))

/-! ### Concrete example data used by witnesses and counterexamples -/

def cfgI : PromptConfig := { subjectStyle := .imperative }

def fileAb : FileSummary :=
  { path := str "ab", changeType := .modified, additions := 1, deletions := 0,
    context := [], highlights := [], keywords := [], weight := 1 }

def diffAb : PreprocessResult :=
  { repoRoot := [], files := [fileAb], lockfileSummaries := [], languageSignals := [],
    summaryText := [], rawDiff := [], truncated := false,
    totalAdditions := 1, totalDeletions := 0 }

def fileLogin : FileSummary :=
  { path := str "src/auth/login.ts", changeType := .modified, additions := 40,
    deletions := 5, context := [], highlights := [],
    keywords := [str "validateToken"], weight := 5 }

def diffLogin : PreprocessResult :=
  { repoRoot := [], files := [fileLogin], lockfileSummaries := [], languageSignals := [],
    summaryText := [], rawDiff := [], truncated := false,
    totalAdditions := 45, totalDeletions := 5 }

def fileParser : FileSummary :=
  { path := str "src/parser.rs", changeType := .modified, additions := 10,
    deletions := 2, context := [], highlights := [], keywords := [], weight := 1 }

def diffParser : PreprocessResult :=
  { repoRoot := [], files := [fileParser], lockfileSummaries := [], languageSignals := [],
    summaryText := [], rawDiff := [], truncated := false,
    totalAdditions := 10, totalDeletions := 2 }

def fileAx : FileSummary :=
  { path := str "a/x.ts", changeType := .modified, additions := 1, deletions := 0,
    context := [], highlights := [], keywords := [], weight := 1 }

def fileBy : FileSummary :=
  { path := str "b/y.ts", changeType := .modified, additions := 100, deletions := 0,
    context := [], highlights := [], keywords := [], weight := 1 }

def diffTwoDirs : PreprocessResult :=
  { repoRoot := [], files := [fileAx, fileBy], lockfileSummaries := [], languageSignals := [],
    summaryText := [], rawDiff := [], truncated := false,
    totalAdditions := 101, totalDeletions := 0 }

def fileTestMd : FileSummary :=
  { path := str "test.md", changeType := .modified, additions := 20, deletions := 0,
    context := [], highlights := [], keywords := [], weight := 1 }

def diffTestMd : PreprocessResult :=
  { repoRoot := [], files := [fileTestMd], lockfileSummaries := [], languageSignals := [],
    summaryText := [], rawDiff := [], truncated := false,
    totalAdditions := 20, totalDeletions := 0 }

def fileNotesMd : FileSummary :=
  { path := str "notes.md", changeType := .modified, additions := 20, deletions := 0,
    context := [], highlights := [], keywords := [], weight := 1 }

def diffNotesMd : PreprocessResult :=
  { repoRoot := [], files := [fileNotesMd], lockfileSummaries := [], languageSignals := [],
    summaryText := [], rawDiff := [], truncated := false,
    totalAdditions := 20, totalDeletions := 0 }

def fileApp : FileSummary :=
  { path := str "src/app.ts", changeType := .modified, additions := 3, deletions := 1,
    context := [], highlights := [], keywords := [], weight := 1 }

def diffApp : PreprocessResult :=
  { repoRoot := [], files := [fileApp], lockfileSummaries := [], languageSignals := [],
    summaryText := [], rawDiff := [], truncated := false,
    totalAdditions := 3, totalDeletions := 1 }

def fileAuth : FileSummary :=
  { path := str "src/auth.ts", changeType := .modified, additions := 5, deletions := 1,
    context := [], highlights := [], keywords := [], weight := 1 }

def diffAuth : PreprocessResult :=
  { repoRoot := [], files := [fileAuth], lockfileSummaries := [], languageSignals := [],
    summaryText := [], rawDiff := [], truncated := false,
    totalAdditions := 5, totalDeletions := 1 }

/-- Run environment for the witness: cancelled at entry. -/
def envEntryAborted : GenEnv :=
  { abortAtEntry := true, stream := .failed, abortAtCatch := true, retry := none,
    abortAtRetryEnd := true, abortAtFinal := true }

/-- Run environment for the counterexample: the model fails while streaming,
the catch-time abort check sees no cancellation, the retry fails, and the
cancellation arrives while the retry is in flight. -/
def envCancelDuringRetry : GenEnv :=
  { abortAtEntry := false, stream := .failed, abortAtCatch := false, retry := none,
    abortAtRetryEnd := true, abortAtFinal := true }

/-- A 131-character subject with safe separators at indices 12 and 100. -/
def longSubjectTwoCommas : Str :=
  List.replicate 12 'a' ++ ',' :: (List.replicate 87 'b' ++ ',' :: List.replicate 30 'c')

def diffEmpty : PreprocessResult :=
  { repoRoot := [], files := [], lockfileSummaries := [], languageSignals := [],
    summaryText := [], rawDiff := [], truncated := false,
    totalAdditions := 0, totalDeletions := 0 }

/-- Top file of the eleven-file diff: a directory-free path whose basename
normalizes to eight characters. -/
def fileLoginTop : FileSummary :=
  { path := str "login.ts", changeType := .modified, additions := 50, deletions := 0,
    context := [], highlights := [], keywords := [], weight := 5 }

/-- One of the ten small files of the eleven-file diff: basename `ab` and a
two-character directory, so every token it contributes normalizes below 3
characters. -/
def mkAbFile (d : Str) : FileSummary :=
  { path := d ++ str "/ab", changeType := .modified, additions := 1, deletions := 0,
    context := [], highlights := [], keywords := [], weight := 1 }

/-- Eleven files, so the derived required count is 2, yet every derived token
except the top basename normalizes below 3 characters. -/
def diffEleven : PreprocessResult :=
  { repoRoot := [],
    files := fileLoginTop ::
      [mkAbFile (str "d1"), mkAbFile (str "d2"), mkAbFile (str "d3"), mkAbFile (str "d4"),
       mkAbFile (str "d5"), mkAbFile (str "d6"), mkAbFile (str "d7"), mkAbFile (str "d8"),
       mkAbFile (str "d9"), mkAbFile (str "da")],
    lockfileSummaries := [], languageSignals := [], summaryText := [], rawDiff := [],
    truncated := false, totalAdditions := 60, totalDeletions := 0 }

def cmKeys (m : CountMap) : List Str := m.map (fun e => e.1)

theorem joinWords_cons (w : Str) (ws : List Str) :
    joinWords (w :: ws) = w ++ (if ws.isEmpty then [] else ' ' :: joinWords ws) := by
  cases ws <;> simp [joinWords]

theorem wordsAux_acc (p : Char → Bool) :
    ∀ (l : Str) (acc : Str), acc ≠ [] →
      wordsAux p l acc = (acc.reverse ++ l.takeWhile p) :: wordsAux p (l.dropWhile p) []
  | [], acc, h => by
    simp [wordsAux, List.isEmpty_iff, h]
  | c :: rest, acc, h => by
    by_cases hp : p c
    · rw [wordsAux, if_pos hp, wordsAux_acc p rest (c :: acc) (by simp),
        List.takeWhile_cons, if_pos hp, List.dropWhile_cons, if_pos hp]
      simp
    · rw [wordsAux, if_neg hp, if_neg (by simp [List.isEmpty_iff, h]),
        List.takeWhile_cons, if_neg hp, List.dropWhile_cons, if_neg hp]
      simp only [List.append_nil, List.cons.injEq, true_and]
      rw [wordsAux, if_neg hp]
      simp

/-- Unfolding equation for `wordsOf` in terms of `takeWhile`/`dropWhile`. -/
theorem wordsOf_cons (p : Char → Bool) (c : Char) (l : Str) :
    wordsOf p (c :: l) =
      if p c then (c :: l.takeWhile p) :: wordsOf p (l.dropWhile p)
      else wordsOf p l := by
  by_cases hp : p c
  · rw [wordsOf, wordsAux, if_pos hp, wordsAux_acc p l [c] (by simp), if_pos hp]
    rfl
  · rw [wordsOf, wordsAux, if_neg hp]
    simp [wordsOf, hp]

theorem wordsOf_nil (p : Char → Bool) : wordsOf p [] = [] := rfl

/-- Strong induction on list length, used because `wordsOf` recurses on
`dropWhile` suffixes. -/
theorem lengthInd {P : Str → Prop}
    (h : ∀ l : Str, (∀ m : Str, m.length < l.length → P m) → P l) :
    ∀ l : Str, P l := by
  intro l
  generalize hn : l.length = n
  induction n using Nat.strong_induction_on generalizing l with
  | _ n ih =>
    subst hn
    exact h l (fun m hm => ih m.length hm m rfl)

theorem length_dropWhile_le' (p : Char → Bool) (l : Str) :
    (l.dropWhile p).length ≤ l.length := by
  induction l with
  | nil => simp
  | cons c rest ih =>
    rw [List.dropWhile_cons]
    by_cases hp : p c
    · simp only [hp, if_true]
      exact Nat.le_succ_of_le ih
    · simp [hp]

theorem mem_wordsOf_ne_nil (p : Char → Bool) :
    ∀ l : Str, ∀ w ∈ wordsOf p l, w ≠ [] := by
  refine lengthInd (fun l ih => ?_)
  cases l with
  | nil => simp [wordsOf_nil]
  | cons c rest =>
    rw [wordsOf_cons]
    by_cases hp : p c
    · simp only [if_pos hp]
      intro w hw
      rcases List.mem_cons.mp hw with hw | hw
      · simp [hw]
      · exact ih (rest.dropWhile p)
          (Nat.lt_succ_of_le (length_dropWhile_le' p rest)) w hw
    · simp only [if_neg hp]
      exact ih rest (Nat.lt_succ_self _)

theorem joinWords_ne_nil (ws : List Str) (hne : ws ≠ [])
    (hw : ∀ w ∈ ws, w ≠ []) : joinWords ws ≠ [] := by
  cases ws with
  | nil => exact absurd rfl hne
  | cons w tail =>
    rw [joinWords_cons]
    intro h
    rcases List.append_eq_nil.mp h with ⟨hw1, _⟩
    exact hw w (by simp) hw1

theorem IsPfx.toIfxP {a b : Str} (h : IsPfx a b) : IsIfx a b := by
  obtain ⟨t, ht⟩ := h
  exact ⟨[], t, by simpa using ht⟩

theorem IsSfx.toIfxS {a b : Str} (h : IsSfx a b) : IsIfx a b := by
  obtain ⟨s, hs⟩ := h
  exact ⟨s, [], by simpa using hs⟩

theorem IsPfx.trans_sfx {a b c : Str} (h1 : IsPfx a b) (h2 : IsSfx b c) :
    IsIfx a c := by
  obtain ⟨t, ht⟩ := h1
  obtain ⟨s, hs⟩ := h2
  exact ⟨s, t, by rw [← hs, ← ht]; simp⟩

theorem IsIfx.transI {a b c : Str} (h1 : IsIfx a b) (h2 : IsIfx b c) :
    IsIfx a c := by
  obtain ⟨s1, t1, h1⟩ := h1
  obtain ⟨s2, t2, h2⟩ := h2
  exact ⟨s2 ++ s1, t1 ++ t2, by rw [← h2, ← h1]; simp⟩

theorem IsIfx.length_le {a b : Str} (h : IsIfx a b) : a.length ≤ b.length := by
  obtain ⟨s, t, hst⟩ := h
  subst hst
  simp only [List.length_append]
  omega

theorem subAt_iff (pat : Str) : ∀ hay : Str, subAt pat hay = true ↔ IsPfx pat hay := by
  induction pat with
  | nil => intro hay; simp [subAt, IsPfx]
  | cons c p' ih =>
    intro hay
    cases hay with
    | nil =>
      simp only [subAt, IsPfx]
      constructor
      · intro h; cases h
      · rintro ⟨t, ht⟩; cases ht
    | cons d h' =>
      rw [subAt]
      by_cases hcd : c = d
      · subst hcd
        rw [if_pos rfl, ih h']
        constructor
        · rintro ⟨t, ht⟩; exact ⟨t, by rw [List.cons_append, ht]⟩
        · rintro ⟨t, ht⟩
          rw [List.cons_append] at ht
          exact ⟨t, by injection ht⟩
      · simp only [if_neg hcd]
        constructor
        · intro h; simp at h
        · rintro ⟨t, ht⟩
          rw [List.cons_append] at ht
          injection ht with h1 _
          exact (hcd h1).elim

theorem containsSub_iff (pat : Str) :
    ∀ hay : Str, containsSub hay pat = true ↔ IsIfx pat hay := by
  intro hay
  induction hay with
  | nil =>
    rw [containsSub, subAt_iff]
    constructor
    · intro h; exact h.toIfxP
    · rintro ⟨s, t, hst⟩
      rcases List.append_eq_nil.mp ((List.append_assoc s pat t) ▸ hst) with ⟨hs, hrest⟩
      rcases List.append_eq_nil.mp hrest with ⟨hp, _⟩
      exact ⟨[], by simp [hp]⟩
  | cons d h' ih =>
    rw [containsSub, Bool.or_eq_true, subAt_iff, ih]
    constructor
    · rintro (h | h)
      · exact h.toIfxP
      · obtain ⟨s, t, hst⟩ := h
        exact ⟨d :: s, t, by rw [← hst]; simp⟩
    · rintro ⟨s, t, hst⟩
      cases s with
      | nil =>
        left
        exact ⟨t, by simpa using hst⟩
      | cons e s' =>
        right
        rw [List.cons_append, List.cons_append] at hst
        injection hst with _ h2
        exact ⟨s', t, h2⟩

/-! ### Extension lemmas for word-normalized strings

The key algebraic fact behind the "synthesis satisfies its own validator"
analysis: normalizing a substring yields a substring of the normalization of
any extension. -/

theorem joinWords_sfx_cons (p : Char → Bool) (c : Char) :
    ∀ l : Str, IsSfx (joinWords (wordsOf p l)) (joinWords (wordsOf p (c :: l))) := by
  intro l
  rw [wordsOf_cons]
  by_cases hp : p c
  · rw [if_pos hp]
    cases l with
    | nil =>
      exact ⟨[c], by simp [wordsOf_nil, joinWords]⟩
    | cons d l' =>
      rw [wordsOf_cons]
      by_cases hq : p d
      · rw [if_pos hq, List.takeWhile_cons, if_pos hq, List.dropWhile_cons, if_pos hq]
        exact ⟨[c], by rw [joinWords_cons, joinWords_cons]; simp⟩
      · rw [if_neg hq, List.takeWhile_cons, if_neg hq, List.dropWhile_cons, if_neg hq]
        rw [joinWords_cons]
        by_cases hnil : wordsOf p (d :: l') = []
        · rw [wordsOf_cons, if_neg hq] at hnil
          rw [wordsOf_cons, if_neg hq, hnil]
          exact ⟨[c], by simp [joinWords]⟩
        · rw [wordsOf_cons, if_neg hq]
          rw [wordsOf_cons, if_neg hq] at hnil
          refine ⟨[c] ++ [' '], ?_⟩
          simp [List.isEmpty_iff, hnil]
  · rw [if_neg hp]
    exact ⟨[], by simp⟩

theorem IsSfx.transS {a b c : Str} (h1 : IsSfx a b) (h2 : IsSfx b c) : IsSfx a c := by
  obtain ⟨s1, hs1⟩ := h1
  obtain ⟨s2, hs2⟩ := h2
  exact ⟨s2 ++ s1, by rw [← hs2, ← hs1]; simp⟩

theorem IsPfx.transP {a b c : Str} (h1 : IsPfx a b) (h2 : IsPfx b c) : IsPfx a c := by
  obtain ⟨t1, ht1⟩ := h1
  obtain ⟨t2, ht2⟩ := h2
  exact ⟨t1 ++ t2, by rw [← ht2, ← ht1]; simp⟩

theorem joinWords_sfx_append (p : Char → Bool) (A : Str) :
    ∀ l : Str, IsSfx (joinWords (wordsOf p l)) (joinWords (wordsOf p (A ++ l))) := by
  induction A with
  | nil => intro l; exact ⟨[], by simp⟩
  | cons c A' ih =>
    intro l
    exact (ih l).transS (joinWords_sfx_cons p c (A' ++ l))

/-- Congruence: a common head word preserves the prefix relation of joined
word lists (provided the left tail joins to a nonempty string when present). -/
theorem joinWords_pfx_cons (w : Str) {ws ws' : List Str}
    (h : IsPfx (joinWords ws) (joinWords ws'))
    (hne : ws ≠ [] → joinWords ws ≠ []) :
    IsPfx (joinWords (w :: ws)) (joinWords (w :: ws')) := by
  cases ws with
  | nil =>
    rw [joinWords_cons w ws']
    exact ⟨_, rfl⟩
  | cons x xs =>
    have hjw : joinWords (x :: xs) ≠ [] := hne (by simp)
    have hws' : ws' ≠ [] := by
      rintro rfl
      obtain ⟨t, ht⟩ := h
      exact hjw (List.append_eq_nil.mp ht).1
    obtain ⟨t, ht⟩ := h
    rw [joinWords_cons w (x :: xs), joinWords_cons w ws']
    simp only [List.isEmpty_iff, hws', if_neg, if_neg (by simp : ¬(x :: xs) = [])]
    refine ⟨t, ?_⟩
    simp only [List.cons_ne_nil, if_neg, ite_false, List.append_assoc]
    rw [← ht]
    simp

theorem pfx_head_word (w ext : Str) (ws : List Str) :
    IsPfx w (joinWords ((w ++ ext) :: ws)) := by
  rw [joinWords_cons]
  exact ⟨ext ++ (if ws.isEmpty then [] else ' ' :: joinWords ws), by simp⟩

theorem dropWhile_head_false (p : Char → Bool) :
    ∀ (l : Str) {x : Char} {xs : Str}, l.dropWhile p = x :: xs → p x = false := by
  intro l
  induction l with
  | nil => intro x xs h; cases h
  | cons c rest ih =>
    intro x xs h
    rw [List.dropWhile_cons] at h
    by_cases hp : p c
    · rw [if_pos hp] at h
      exact ih h
    · rw [if_neg hp] at h
      injection h with h1 _
      subst h1
      simpa using hp

/-- Appending words on the right preserves the normal form as a prefix. -/
theorem joinWords_pfx_append (p : Char → Bool) :
    ∀ l B : Str, IsPfx (joinWords (wordsOf p l)) (joinWords (wordsOf p (l ++ B))) := by
  refine lengthInd (fun l ih B => ?_)
  cases l with
  | nil => exact ⟨joinWords (wordsOf p B), by simp [wordsOf_nil, joinWords]⟩
  | cons c l' =>
    rw [List.cons_append, wordsOf_cons, wordsOf_cons]
    by_cases hp : p c
    · rw [if_pos hp, if_pos hp]
      by_cases hall : l'.dropWhile p = []
      · have hallp : ∀ a ∈ l', p a = true := List.dropWhile_eq_nil_iff.mp hall
        have htw : l'.takeWhile p = l' := List.takeWhile_eq_self_iff.mpr hallp
        rw [List.takeWhile_append_of_pos hallp, List.dropWhile_append_of_pos hallp,
          htw, hall, wordsOf_nil]
        have h2 := pfx_head_word (c :: l') (B.takeWhile p) (wordsOf p (B.dropWhile p))
        simpa [joinWords] using h2
      · set u := l'.takeWhile p with hu
        set v := l'.dropWhile p with hv
        have hl' : u ++ v = l' := List.takeWhile_append_dropWhile p l'
        have hup : ∀ a ∈ u, p a = true := fun a ha => List.mem_takeWhile_imp ha
        obtain ⟨vh, vt, hvc⟩ := List.exists_cons_of_ne_nil hall
        have hvc' : l'.dropWhile p = vh :: vt := by rw [← hv]; exact hvc
        have hpvh : ¬ p vh = true := by
          simpa using dropWhile_head_false p l' hvc'
        have htwB : (l' ++ B).takeWhile p = u := by
          rw [← hl', List.append_assoc, List.takeWhile_append_of_pos hup, hvc,
            List.cons_append, List.takeWhile_cons, if_neg hpvh, List.append_nil]
        have hdwB : (l' ++ B).dropWhile p = v ++ B := by
          rw [← hl', List.append_assoc, List.dropWhile_append_of_pos hup, hvc,
            List.cons_append, List.dropWhile_cons, if_neg hpvh]
        rw [htwB, hdwB]
        have hvlen : v.length < (c :: l').length := by
          have : v.length ≤ l'.length := hv ▸ length_dropWhile_le' p l'
          simpa using Nat.lt_succ_of_le this
        refine joinWords_pfx_cons _ (ih v hvlen B) ?_
        intro hwne
        exact joinWords_ne_nil _ hwne (mem_wordsOf_ne_nil p v)
    · rw [if_neg hp, if_neg hp]
      exact ih l' (Nat.lt_succ_self _) B

/-- Core substring-extension theorem: the normal form of `X` is a substring of
the normal form of any `A ++ X ++ B`. -/
theorem normWords_ifx (p : Char → Bool) (A X B : Str) :
    IsIfx (joinWords (wordsOf p X)) (joinWords (wordsOf p (A ++ X ++ B))) := by
  have h1 : IsPfx (joinWords (wordsOf p X)) (joinWords (wordsOf p (X ++ B))) :=
    joinWords_pfx_append p X B
  have h2 : IsSfx (joinWords (wordsOf p (X ++ B))) (joinWords (wordsOf p (A ++ (X ++ B)))) :=
    joinWords_sfx_append p A (X ++ B)
  have := h1.trans_sfx h2
  rwa [← List.append_assoc] at this

/-- Instantiation for the normalizer: `normalizeForMatch X` occurs inside
`normalizeForMatch (A ++ X ++ B)`. -/
theorem normalizeForMatch_ifx (A X B : Str) :
    IsIfx (normalizeForMatch X) (normalizeForMatch (A ++ X ++ B)) := by
  unfold normalizeForMatch lowerL
  rw [List.map_append, List.map_append]
  exact normWords_ifx keepAlnum _ _ _

/-! ### Invariance of the normal form under whitespace trimming -/

theorem ws_not_keep (c : Char) (hc : isWsChar c = true) :
    keepAlnum (lowerChar c) = false := by
  have : c = ' ' ∨ c = '\t' ∨ c = '\r' ∨ c = '\n' := by
    simpa [isWsChar, or_assoc] using hc
  rcases this with rfl | rfl | rfl | rfl <;> decide

theorem wordsOf_pre_nop (p : Char → Bool) (pre : Str)
    (hpre : ∀ c ∈ pre, p c = false) (l : Str) :
    wordsOf p (pre ++ l) = wordsOf p l := by
  induction pre with
  | nil => simp
  | cons c pre' ih =>
    rw [List.cons_append, wordsOf_cons,
      if_neg (by simp [hpre c (by simp)])]
    exact ih (fun d hd => hpre d (by simp [hd]))

theorem wordsOf_post_nop (p : Char → Bool) (post : Str)
    (hpost : ∀ c ∈ post, p c = false) :
    ∀ l : Str, wordsOf p (l ++ post) = wordsOf p l := by
  refine lengthInd (fun l ih => ?_)
  cases l with
  | nil =>
    simpa using wordsOf_pre_nop p post hpost []
  | cons c l' =>
    rw [List.cons_append, wordsOf_cons, wordsOf_cons]
    by_cases hp : p c
    · rw [if_pos hp, if_pos hp]
      by_cases hall : l'.dropWhile p = []
      · have hallp : ∀ a ∈ l', p a = true := List.dropWhile_eq_nil_iff.mp hall
        have htw : l'.takeWhile p = l' := List.takeWhile_eq_self_iff.mpr hallp
        rw [List.takeWhile_append_of_pos hallp, List.dropWhile_append_of_pos hallp, htw, hall]
        have htp : post.takeWhile p = [] := by
          cases post with
          | nil => rfl
          | cons d post' =>
            rw [List.takeWhile_cons, if_neg (by simp [hpost d (by simp)])]
        have hdp : post.dropWhile p = post := by
          have := List.takeWhile_append_dropWhile p post
          rw [htp] at this
          simpa using this
        rw [htp, hdp, List.append_nil, wordsOf_nil]
        have hwp : wordsOf p post = [] := by
          simpa using wordsOf_pre_nop p post hpost []
        rw [hwp]
      · set u := l'.takeWhile p with hu
        set v := l'.dropWhile p with hv
        have hl' : u ++ v = l' := List.takeWhile_append_dropWhile p l'
        have hup : ∀ a ∈ u, p a = true := fun a ha => List.mem_takeWhile_imp ha
        obtain ⟨vh, vt, hvc⟩ := List.exists_cons_of_ne_nil hall
        have hvc' : l'.dropWhile p = vh :: vt := by rw [← hv]; exact hvc
        have hpvh : ¬ p vh = true := by
          simpa using dropWhile_head_false p l' hvc'
        have htwB : (l' ++ post).takeWhile p = u := by
          rw [← hl', List.append_assoc, List.takeWhile_append_of_pos hup, hvc,
            List.cons_append, List.takeWhile_cons, if_neg hpvh, List.append_nil]
        have hdwB : (l' ++ post).dropWhile p = v ++ post := by
          rw [← hl', List.append_assoc, List.dropWhile_append_of_pos hup, hvc,
            List.cons_append, List.dropWhile_cons, if_neg hpvh]
        rw [htwB, hdwB]
        have hvlen : v.length < (c :: l').length := by
          have : v.length ≤ l'.length := hv ▸ length_dropWhile_le' p l'
          simpa using Nat.lt_succ_of_le this
        rw [ih v hvlen]
    · rw [if_neg hp, if_neg hp]
      exact ih l' (Nat.lt_succ_self _)

/-- Decomposition produced by `trim`: the original string is the trimmed core
with all-whitespace affixes. -/
theorem trim_decomp (l : Str) :
    ∃ pre post, (∀ c ∈ pre, isWsChar c = true) ∧ (∀ c ∈ post, isWsChar c = true) ∧
      l = pre ++ trimList l ++ post := by
  refine ⟨l.takeWhile isWsChar, ((l.dropWhile isWsChar).reverse.takeWhile isWsChar).reverse,
    fun c hc => List.mem_takeWhile_imp hc,
    fun c hc => List.mem_takeWhile_imp (List.mem_reverse.mp hc), ?_⟩
  rw [trimList, dropRightWhileP]
  conv_lhs => rw [← List.takeWhile_append_dropWhile isWsChar l]
  rw [List.append_assoc]
  congr 1
  conv_lhs => rw [← List.reverse_reverse (l.dropWhile isWsChar),
    ← List.takeWhile_append_dropWhile isWsChar (l.dropWhile isWsChar).reverse,
    List.reverse_append]

/-- Trimming does not change the match-normal form. -/
theorem normalizeForMatch_trim (l : Str) :
    normalizeForMatch (trimList l) = normalizeForMatch l := by
  obtain ⟨pre, post, hpre, hpost, hl⟩ := trim_decomp l
  conv_rhs => rw [hl]
  unfold normalizeForMatch lowerL
  rw [List.map_append, List.map_append,
    wordsOf_post_nop keepAlnum (post.map lowerChar)
      (fun c hc => by
        obtain ⟨d, hd, rfl⟩ := List.mem_map.mp hc
        exact ws_not_keep d (hpost d hd)),
    wordsOf_pre_nop keepAlnum (pre.map lowerChar)
      (fun c hc => by
        obtain ⟨d, hd, rfl⟩ := List.mem_map.mp hc
        exact ws_not_keep d (hpre d hd))]

/-- The normal form never gets longer than the input. -/
theorem normWords_length_le (p : Char → Bool) :
    ∀ l : Str, (joinWords (wordsOf p l)).length ≤ l.length := by
  refine lengthInd (fun l ih => ?_)
  cases l with
  | nil => simp [wordsOf_nil, joinWords]
  | cons c l' =>
    rw [wordsOf_cons]
    by_cases hp : p c
    · rw [if_pos hp, joinWords_cons]
      have hsplit : (l'.takeWhile p).length + (l'.dropWhile p).length = l'.length := by
        conv_rhs => rw [← List.takeWhile_append_dropWhile p l']
        rw [List.length_append]
      by_cases hws : (wordsOf p (l'.dropWhile p)).isEmpty
      · rw [if_pos hws]
        simp only [List.length_append, List.length_cons, List.length_nil]
        omega
      · rw [if_neg hws]
        have hdw : l'.dropWhile p ≠ [] := by
          intro hnil
          rw [hnil, wordsOf_nil] at hws
          simp at hws
        obtain ⟨vh, vt, hvc⟩ := List.exists_cons_of_ne_nil hdw
        have hpvh : ¬ p vh = true := by
          simpa using dropWhile_head_false p l' hvc
        have hwv : wordsOf p (l'.dropWhile p) = wordsOf p vt := by
          rw [hvc, wordsOf_cons, if_neg hpvh]
        have hvt : (joinWords (wordsOf p vt)).length ≤ vt.length := by
          refine ih vt ?_
          have : vt.length < (l'.dropWhile p).length := by rw [hvc]; simp
          have h2 : (l'.dropWhile p).length ≤ l'.length := length_dropWhile_le' p l'
          simp only [List.length_cons]
          omega
        rw [hwv]
        have hdl : (l'.dropWhile p).length = vt.length + 1 := by rw [hvc]; simp
        simp only [List.length_append, List.length_cons]
        omega
    · rw [if_neg hp]
      exact Nat.le_succ_of_le (ih l' (Nat.lt_succ_self _))

/-- The match-normal form never gets longer than the input. -/
theorem normalizeForMatch_length_le (l : Str) :
    (normalizeForMatch l).length ≤ l.length := by
  have := normWords_length_le keepAlnum (lowerL l)
  rwa [show (lowerL l).length = l.length from by simp [lowerL]] at this

theorem splitOnChar_ne_nil (sep : Char) (l : Str) : splitOnChar sep l ≠ [] := by
  cases l with
  | nil => simp [splitOnChar]
  | cons c rest =>
    rw [splitOnChar]
    by_cases h : c = sep
    · simp [h]
    · rw [if_neg h]
      cases splitOnChar sep rest <;> simp

/-! ### C10: empty required-token lists always pass -/

/-- C10: for every subject string and every required count (including count
2), `matchRequiredTokens` reports success when the required-token list is
empty, so a diff from which no tokens could be derived places no specificity
constraint on the model's subject and the missing-tokens rejection reason can
never fire. -/
theorem matchRequiredTokens_empty_tokens_ok (subject : Str) (requiredCount : Nat) :
    (matchRequiredTokens subject [] requiredCount).ok = true ∧
    (matchRequiredTokens subject [] requiredCount).matchedTokens = [] := by
  constructor <;> rfl

/-! ### C6: scope derivation -/

theorem splitOnChar_no_sep (sep : Char) (l : Str) (h : sep ∉ l) :
    splitOnChar sep l = [l] := by
  induction l with
  | nil => rfl
  | cons c rest ih =>
    rw [splitOnChar, if_neg (by intro hc; exact h (by simp [hc])),
      ih (fun hm => h (by simp [hm]))]

theorem splitOnChar_mem_sep (sep : Char) :
    ∀ l : Str, sep ∈ l →
      1 < (splitOnChar sep l).length ∧
      (splitOnChar sep l).headD [] = l.takeWhile (· ≠ sep) := by
  intro l
  induction l with
  | nil => intro h; cases h
  | cons c rest ih =>
    intro h
    rw [splitOnChar]
    by_cases hc : c = sep
    · rw [if_pos hc]
      refine ⟨?_, ?_⟩
      · have := splitOnChar_ne_nil sep rest
        cases hsp : splitOnChar sep rest with
        | nil => exact absurd hsp this
        | cons w ws => simp [hsp]
      · rw [List.takeWhile_cons, if_neg (by simp [hc])]
        rfl
    · rw [if_neg hc]
      have hmem : sep ∈ rest := by
        rcases List.mem_cons.mp h with h1 | h1
        · exact absurd h1.symm hc
        · exact h1
      obtain ⟨hlen, hhead⟩ := ih hmem
      cases hsp : splitOnChar sep rest with
      | nil => exact absurd hsp (splitOnChar_ne_nil sep rest)
      | cons w ws =>
        rw [hsp] at hlen hhead
        refine ⟨by simpa using hlen, ?_⟩
        rw [List.takeWhile_cons, if_pos (by simpa using hc)]
        simpa using congrArg (c :: ·) hhead

/-- The source `deriveScope` agrees with the spec's "top-level directory, else
core" description. -/
theorem deriveScope_eq_specScope (path : Str) : deriveScope path = specScope path := by
  unfold deriveScope specScope
  by_cases h : '/' ∈ path
  · obtain ⟨hlen, hhead⟩ := splitOnChar_mem_sep '/' path h
    rw [if_pos hlen, if_pos h, hhead]
  · rw [splitOnChar_no_sep '/' path h, if_neg h]
    simp

/-- C6 (amended): the scope handed to the prompt and normalizer is the
top-level directory of the FIRST file of the diff summary (not the
highest-ranked one), `core` when that path has no directory component and
`repo` when no files changed; `deriveScope` itself matches the spec's
top-level-directory rule. -/
theorem scopeHint_uses_first_file :
    (∀ diff : PreprocessResult,
      scopeHintOf diff =
        match diff.files with
        | [] => str "repo"
        | f :: _ => specScope f.path) ∧
    (∀ path : Str, deriveScope path = specScope path) := by
  refine ⟨fun diff => ?_, deriveScope_eq_specScope⟩
  unfold scopeHintOf
  cases diff.files with
  | nil => rfl
  | cons f rest => exact deriveScope_eq_specScope f.path

/-- C6 counterexample: with a small `a/x.ts` listed first and a much larger
`b/y.ts` second, the derived scope is `a`, while the highest-ranked file is
`b/y.ts` whose top-level directory is `b`. -/
theorem scopeHint_not_ranked_counterexample :
    scopeHintOf diffTwoDirs = str "a" ∧
    (rankedFilesOf diffTwoDirs).map (fun f => f.path) = [str "b/y.ts", str "a/x.ts"] ∧
    deriveScope (str "b/y.ts") = str "b" ∧
    str "a" ≠ str "b" := by
  refine ⟨by decide, by decide, by decide, by decide⟩

/-! ### C7: weighted type classification -/

theorem deriveTypeLoop_eq_bucketWeights (files : List FileSummary) :
    deriveTypeLoop files =
      (bucketWeight .test files, bucketWeight .docs files, bucketWeight .config files,
        bucketWeight .code files, totalWeight files) := by
  induction files with
  | nil => rfl
  | cons f rest ih =>
    rw [deriveTypeLoop, ih]
    by_cases ht : testRule f.path
    · simp [bucketWeight, totalWeight, bucketOf, ht, Nat.add_comm]
    · by_cases hd : docsRule f.path
      · simp [bucketWeight, totalWeight, bucketOf, ht, hd, Nat.add_comm]
      · by_cases hc : configRule f.path
        · simp [bucketWeight, totalWeight, bucketOf, ht, hd, hc, Nat.add_comm]
        · simp [bucketWeight, totalWeight, bucketOf, ht, hd, hc, Nat.add_comm]

theorem typeScore_pos (f : FileSummary) : 0 < typeScore f := by
  unfold typeScore
  by_cases h1 : f.additions + f.deletions ≠ 0
  · rw [if_pos h1]; omega
  · rw [if_neg h1]
    by_cases h2 : f.weight ≠ 0
    · rw [if_pos h2]; omega
    · rw [if_neg h2]; omega

/-- The loop of `deriveType` agrees with the spec's weighted-share sums. -/
theorem deriveType_eq_spec (diff : PreprocessResult) :
    deriveType diff = specDeriveType diff := by
  unfold deriveType specDeriveType
  rw [deriveTypeLoop_eq_bucketWeights]

/-- C7 (amended): `deriveType` equals the spec's weighted-share
classification (weights `additions + deletions`, falling back to `weight`,
floored at 1; buckets by the path rules; a share strictly above one half
fixes test, docs or chore; else refactor when deletions exceed additions,
else feat), and a diff touching only `.md` files yields `docs` provided no
path also matches the test or spec path rule, which takes precedence. -/
theorem deriveType_characterization :
    (∀ diff : PreprocessResult, deriveType diff = specDeriveType diff) ∧
    (∀ diff : PreprocessResult, diff.files ≠ [] →
      (∀ f ∈ diff.files, endsWithStr (lowerL f.path) (str ".md") = true ∧
        testRule f.path = false) →
      deriveType diff = str "docs") := by
  refine ⟨deriveType_eq_spec, ?_⟩
  intro diff hne hmd
  rw [deriveType_eq_spec]
  have hbucket : ∀ f ∈ diff.files, bucketOf f.path = .docs := by
    intro f hf
    obtain ⟨hmd1, hts⟩ := hmd f hf
    unfold bucketOf
    rw [if_neg (by simp [hts]), if_pos (by unfold docsRule; simp [hmd1])]
  have htest : bucketWeight .test diff.files = 0 := by
    unfold bucketWeight
    rw [show diff.files.filter (fun f => bucketOf f.path == Bucket.test) = [] from ?_]
    · rfl
    · rw [List.filter_eq_nil_iff]
      intro f hf
      rw [hbucket f hf]
      decide
  have hdocs : bucketWeight .docs diff.files = totalWeight diff.files := by
    unfold bucketWeight totalWeight
    rw [List.filter_eq_self.mpr (fun f hf => by rw [hbucket f hf]; decide)]
  have hpos : 0 < totalWeight diff.files := by
    unfold totalWeight
    cases hfs : diff.files with
    | nil => exact absurd hfs hne
    | cons f rest =>
      have := typeScore_pos f
      simp only [List.map_cons, List.sum_cons]
      omega
  unfold specDeriveType
  rw [htest, hdocs, if_neg (by omega), if_pos (by omega)]

/-- C7 counterexample: a diff touching only the Markdown file `test.md` is
classified `test`, not `docs`, because the test path rule fires on the
substring `test` before the docs rule is consulted. -/
theorem deriveType_md_only_counterexample :
    diffTestMd.files = [fileTestMd] ∧
    endsWithStr (lowerL fileTestMd.path) (str ".md") = true ∧
    deriveType diffTestMd = str "test" ∧
    str "test" ≠ str "docs" := by
  refine ⟨rfl, by decide, by decide, by decide⟩

/-- C7 witness: the amended claim applied to a diff touching only
`notes.md`. -/
theorem deriveType_characterization_witness :
    deriveType diffNotesMd = specDeriveType diffNotesMd ∧
    diffNotesMd.files ≠ [] ∧
    deriveType diffNotesMd = str "docs" :=
  ⟨deriveType_characterization.1 diffNotesMd, by simp [diffNotesMd],
    deriveType_characterization.2 diffNotesMd (by simp [diffNotesMd])
      (by
        intro f hf
        rw [show f = fileNotesMd by simpa [diffNotesMd] using hf]
        exact ⟨by decide, by decide⟩)⟩

/-! ### C2: the four-variant characterization of token matching -/

theorem mem_addUnique_self (l : List Str) (x : Str) : x ∈ addUnique l x := by
  unfold addUnique
  by_cases hx : x ∈ l
  · rwa [if_pos hx]
  · rw [if_neg hx]; simp

theorem mem_addUnique_of_mem {l : List Str} {y : Str} (x : Str) (h : y ∈ l) :
    y ∈ addUnique l x := by
  unfold addUnique
  by_cases hx : x ∈ l
  · rwa [if_pos hx]
  · rw [if_neg hx]; simp [h]

theorem mem_addUnique_iff {l : List Str} {x y : Str} :
    y ∈ addUnique l x ↔ y ∈ l ∨ y = x := by
  unfold addUnique
  by_cases hx : x ∈ l
  · rw [if_pos hx]
    constructor
    · exact Or.inl
    · rintro (h | rfl) <;> assumption
  · rw [if_neg hx]; simp

theorem mem_ite_addUnique {l : List Str} {y : Str} (x : Str) (c : Prop) [Decidable c]
    (h : y ∈ l) : y ∈ (if c then addUnique l x else l) := by
  by_cases hc : c
  · rw [if_pos hc]
    exact mem_addUnique_of_mem x h
  · rwa [if_neg hc]

theorem mem_expandTokenVariants_of_cond (token : Str) :
    (trimList token ≠ [] → trimList token ∈ expandTokenVariants token) ∧
    (trimList token ≠ [] → dropLeadPunct (trimList token) ≠ [] →
      dropLeadPunct (trimList token) ≠ trimList token →
      dropLeadPunct (trimList token) ∈ expandTokenVariants token) ∧
    (trimList token ≠ [] → basePart (trimList token) ≠ [] →
      basePart (trimList token) ≠ trimList token →
      basePart (trimList token) ∈ expandTokenVariants token) ∧
    (trimList token ≠ [] → stripExt (basePart (trimList token)) ≠ [] →
      stripExt (basePart (trimList token)) ≠ basePart (trimList token) →
      stripExt (basePart (trimList token)) ∈ expandTokenVariants token) := by
  unfold expandTokenVariants
  refine ⟨fun ht => ?_, fun ht h1 h2 => ?_, fun ht h1 h2 => ?_, fun ht h1 h2 => ?_⟩ <;>
    rw [if_neg ht] <;> dsimp only
  · exact mem_ite_addUnique _ _ (mem_ite_addUnique _ _
      (mem_ite_addUnique _ _ (List.mem_singleton_self _)))
  · rw [if_pos (⟨h1, h2⟩ : dropLeadPunct (trimList token) ≠ [] ∧
      dropLeadPunct (trimList token) ≠ trimList token)]
    exact mem_ite_addUnique _ _ (mem_ite_addUnique _ _ (mem_addUnique_self _ _))
  · rw [if_pos (⟨h1, h2⟩ : basePart (trimList token) ≠ [] ∧
      basePart (trimList token) ≠ trimList token)]
    exact mem_ite_addUnique _ _ (mem_addUnique_self _ _)
  · rw [if_pos (⟨h1, h2⟩ : stripExt (basePart (trimList token)) ≠ [] ∧
      stripExt (basePart (trimList token)) ≠ basePart (trimList token))]
    exact mem_addUnique_self _ _

theorem expandTokenVariants_sub_four (token : Str) :
    ∀ v ∈ expandTokenVariants token,
      v ∈ [trimList token, dropLeadPunct (trimList token), basePart (trimList token),
        stripExt (basePart (trimList token))] := by
  unfold expandTokenVariants
  by_cases ht : trimList token = []
  · rw [if_pos ht]
    intro v hv
    cases hv
  · rw [if_neg ht]
    dsimp only
    have step : ∀ {l : List Str} {x : Str},
        (∀ w ∈ l, w ∈ [trimList token, dropLeadPunct (trimList token),
          basePart (trimList token), stripExt (basePart (trimList token))]) →
        x ∈ [trimList token, dropLeadPunct (trimList token),
          basePart (trimList token), stripExt (basePart (trimList token))] →
        ∀ w ∈ addUnique l x, w ∈ [trimList token, dropLeadPunct (trimList token),
          basePart (trimList token), stripExt (basePart (trimList token))] := by
      intro l x hl hx w hw
      rcases mem_addUnique_iff.mp hw with h | rfl
      · exact hl w h
      · exact hx
    have h1 : ∀ w ∈ [trimList token], w ∈ [trimList token, dropLeadPunct (trimList token),
        basePart (trimList token), stripExt (basePart (trimList token))] := by
      intro w hw
      rcases List.mem_singleton.mp hw with rfl
      simp
    have h2 : ∀ w ∈ (if dropLeadPunct (trimList token) ≠ [] ∧
          dropLeadPunct (trimList token) ≠ trimList token then
          addUnique [trimList token] (dropLeadPunct (trimList token))
        else [trimList token]),
        w ∈ [trimList token, dropLeadPunct (trimList token),
          basePart (trimList token), stripExt (basePart (trimList token))] := by
      by_cases hc : dropLeadPunct (trimList token) ≠ [] ∧
          dropLeadPunct (trimList token) ≠ trimList token
      · rw [if_pos hc]
        exact step h1 (by simp)
      · rw [if_neg hc]
        exact h1
    have h3 : ∀ w ∈ (if basePart (trimList token) ≠ [] ∧
          basePart (trimList token) ≠ trimList token then
          addUnique (if dropLeadPunct (trimList token) ≠ [] ∧
              dropLeadPunct (trimList token) ≠ trimList token then
              addUnique [trimList token] (dropLeadPunct (trimList token))
            else [trimList token]) (basePart (trimList token))
        else (if dropLeadPunct (trimList token) ≠ [] ∧
              dropLeadPunct (trimList token) ≠ trimList token then
              addUnique [trimList token] (dropLeadPunct (trimList token))
            else [trimList token])),
        w ∈ [trimList token, dropLeadPunct (trimList token),
          basePart (trimList token), stripExt (basePart (trimList token))] := by
      by_cases hc : basePart (trimList token) ≠ [] ∧
          basePart (trimList token) ≠ trimList token
      · rw [if_pos hc]
        exact step h2 (by simp)
      · rw [if_neg hc]
        exact h2
    by_cases hc : stripExt (basePart (trimList token)) ≠ [] ∧
        stripExt (basePart (trimList token)) ≠ basePart (trimList token)
    · rw [if_pos hc]
      exact step h3 (by simp)
    · rw [if_neg hc]
      exact h3

theorem tokenMatches_eq_four (subject token : Str) :
    tokenMatches (normalizeForMatch subject) token = fourVariantMatch subject token := by
  have hnil : normalizeForMatch ([] : Str) = [] := rfl
  have hPnil : ∀ hay : Str,
      (decide (3 ≤ (normalizeForMatch ([] : Str)).length) &&
        containsSub hay (normalizeForMatch ([] : Str))) = false := by
    intro hay
    rw [show decide (3 ≤ (normalizeForMatch ([] : Str)).length) = false from by decide,
      Bool.false_and]
  have hiff : (tokenMatches (normalizeForMatch subject) token = true) ↔
      (fourVariantMatch subject token = true) := by
    unfold tokenMatches fourVariantMatch
    rw [List.any_eq_true, List.any_eq_true]
    constructor
    · rintro ⟨v, hv, hP⟩
      exact ⟨v, expandTokenVariants_sub_four token v hv, hP⟩
    · rintro ⟨v, hv, hP⟩
      simp only [List.mem_cons, List.not_mem_nil, or_false] at hv
      have hmem := mem_expandTokenVariants_of_cond token
      by_cases ht : trimList token = []
      · exfalso
        have hall : v = [] := by
          rcases hv with rfl | rfl | rfl | rfl
          · exact ht
          · rw [ht]; rfl
          · rw [ht]; rfl
          · rw [ht]; rfl
        rw [hall, hPnil] at hP
        cases hP
      · rcases hv with rfl | rfl | rfl | rfl
        · exact ⟨trimList token, hmem.1 ht, hP⟩
        · by_cases he : dropLeadPunct (trimList token) = []
          · rw [he, hPnil] at hP
            cases hP
          · by_cases heq : dropLeadPunct (trimList token) = trimList token
            · rw [heq] at hP
              exact ⟨trimList token, hmem.1 ht, hP⟩
            · exact ⟨_, hmem.2.1 ht he heq, hP⟩
        · by_cases he : basePart (trimList token) = []
          · rw [he, hPnil] at hP
            cases hP
          · by_cases heq : basePart (trimList token) = trimList token
            · rw [heq] at hP
              exact ⟨trimList token, hmem.1 ht, hP⟩
            · exact ⟨_, hmem.2.2.1 ht he heq, hP⟩
        · by_cases he : stripExt (basePart (trimList token)) = []
          · rw [he, hPnil] at hP
            cases hP
          · by_cases heq : stripExt (basePart (trimList token)) = basePart (trimList token)
            · rw [heq] at hP
              by_cases he2 : basePart (trimList token) = []
              · rw [he2, hPnil] at hP
                cases hP
              · by_cases heq2 : basePart (trimList token) = trimList token
                · rw [heq2] at hP
                  exact ⟨trimList token, hmem.1 ht, hP⟩
                · exact ⟨_, hmem.2.2.1 ht he2 heq2, hP⟩
            · exact ⟨_, hmem.2.2.2 ht he heq, hP⟩
  by_cases hA : tokenMatches (normalizeForMatch subject) token = true
  · rw [hA, hiff.mp hA]
  · have hA' : tokenMatches (normalizeForMatch subject) token = false :=
      Bool.eq_false_iff.mpr hA
    have hB' : fourVariantMatch subject token = false := by
      rw [Bool.eq_false_iff]
      intro hB
      exact hA (hiff.mpr hB)
    rw [hA', hB']

theorem mem_collectMatched (ns : Str) :
    ∀ (ts acc : List Str) (t : Str),
      t ∈ collectMatched ns ts acc ↔
        t ∈ acc ∨ (t ∈ ts ∧ tokenMatches ns t = true) := by
  intro ts
  induction ts with
  | nil => intro acc t; simp [collectMatched]
  | cons x rest ih =>
    intro acc t
    rw [collectMatched]
    by_cases hc : tokenMatches ns x = true ∧ x ∉ acc
    · rw [if_pos hc, ih]
      by_cases htx : t = x
      · subst htx
        simp [hc.1]
      · simp only [List.mem_append, List.mem_cons, List.not_mem_nil, or_false]
        constructor
        · rintro ((h | h) | h)
          · exact Or.inl h
          · exact absurd h htx
          · exact Or.inr ⟨Or.inr h.1, h.2⟩
        · rintro (h | ⟨h1 | h1, h2⟩)
          · exact Or.inl (Or.inl h)
          · exact absurd h1 htx
          · exact Or.inr ⟨h1, h2⟩
    · rw [if_neg hc, ih]
      rcases Decidable.not_and_iff_or_not.mp hc with h | h
      · have hx : tokenMatches ns x = false := Bool.eq_false_iff.mpr h
        constructor
        · rintro (h1 | h1)
          · exact Or.inl h1
          · exact Or.inr ⟨List.mem_cons_of_mem x h1.1, h1.2⟩
        · rintro (h1 | ⟨h1, h2⟩)
          · exact Or.inl h1
          · rcases List.mem_cons.mp h1 with rfl | h1
            · rw [hx] at h2; cases h2
            · exact Or.inr ⟨h1, h2⟩
      · have hxa : x ∈ acc := Decidable.not_not.mp h
        constructor
        · rintro (h1 | h1)
          · exact Or.inl h1
          · exact Or.inr ⟨List.mem_cons_of_mem x h1.1, h1.2⟩
        · rintro (h1 | ⟨h1, h2⟩)
          · exact Or.inl h1
          · rcases List.mem_cons.mp h1 with rfl | h1
            · exact Or.inl hxa
            · exact Or.inr ⟨h1, h2⟩

theorem collectMatched_length_ge (ns : Str) :
    ∀ (ts acc : List Str), acc.length ≤ (collectMatched ns ts acc).length := by
  intro ts
  induction ts with
  | nil => intro acc; simp [collectMatched]
  | cons x rest ih =>
    intro acc
    rw [collectMatched]
    by_cases hc : tokenMatches ns x = true ∧ x ∉ acc
    · rw [if_pos hc]
      calc acc.length ≤ (acc ++ [x]).length := by simp
        _ ≤ _ := ih (acc ++ [x])
    · rw [if_neg hc]
      exact ih acc

/-- C2: `matchRequiredTokens` counts a token as matched exactly when one of
the four variants — the (trimmed) raw token, the token with leading dot, hash
or slash stripped, its path basename, and that basename without extension —
has a normalized form of at least 3 characters occurring as a substring of
the normalized subject; in particular the token `src/foo/bar.ts` is matched
by a subject containing `bar` but not by a subject containing only `foo`. -/
theorem matchRequiredTokens_four_variant_characterization :
    (∀ (subject : Str) (tokens : List Str) (requiredCount : Nat) (token : Str),
      token ∈ (matchRequiredTokens subject tokens requiredCount).matchedTokens ↔
        token ∈ tokens ∧ fourVariantMatch subject token = true) ∧
    (matchRequiredTokens (str "add bar to output") [str "src/foo/bar.ts"] 1).ok = true ∧
    (matchRequiredTokens (str "rework foo module") [str "src/foo/bar.ts"] 1).ok = false := by
  refine ⟨fun subject tokens requiredCount token => ?_, by decide, by decide⟩
  unfold matchRequiredTokens
  by_cases h : tokens = []
  · subst h
    simp
  · rw [if_neg h]
    dsimp only
    rw [mem_collectMatched]
    simp only [List.not_mem_nil, false_or]
    constructor
    · rintro ⟨h1, h2⟩
      exact ⟨h1, (tokenMatches_eq_four subject token) ▸ h2⟩
    · rintro ⟨h1, h2⟩
      exact ⟨h1, (tokenMatches_eq_four subject token) ▸ h2⟩

/-! ### C9: pure relocation cancels completely -/

theorem cmGet_cmSet (m : CountMap) (k : Str) (v : Nat) (k' : Str) :
    cmGet (cmSet m k v) k' = if k' = k then v else cmGet m k' := by
  induction m with
  | nil =>
    rw [cmSet, show cmGet [(k, v)] k' = if k = k' then v else cmGet ([] : CountMap) k' from rfl,
      show cmGet ([] : CountMap) k' = 0 from rfl]
    by_cases h : k = k'
    · rw [if_pos h, if_pos h.symm]
    · rw [if_neg h, if_neg (fun hh => h hh.symm)]
  | cons e rest ih =>
    obtain ⟨ek, ev⟩ := e
    rw [cmSet]
    by_cases h1 : ek = k
    · rw [if_pos h1, cmGet]
      by_cases h2 : ek = k'
      · rw [if_pos h2, if_pos (h2.symm.trans h1)]
      · rw [if_neg h2, if_neg (fun hh : k' = k => h2 (h1.trans hh.symm)), cmGet, if_neg h2]
    · rw [if_neg h1, cmGet, ih]
      by_cases h2 : ek = k'
      · have hk : ¬ k' = k := fun hh => h1 (h2.trans hh)
        rw [if_pos h2, if_neg hk, cmGet, if_pos h2]
      · rw [if_neg h2]
        by_cases h3 : k' = k
        · rw [if_pos h3, if_pos h3]
        · rw [if_neg h3, if_neg h3, cmGet, if_neg h2]

theorem buildRemovedMap_get (removed : List Str) (k : Str) :
    cmGet (buildRemovedMap removed) k =
      (removed.map normalizeLine).countP (fun x => decide (x = k)) := by
  suffices h : ∀ (lines : List Str) (m : CountMap) (k : Str),
      cmGet (lines.foldl (fun m line =>
        cmSet m (normalizeLine line) (cmGet m (normalizeLine line) + 1)) m) k =
      cmGet m k + (lines.map normalizeLine).countP (fun x => decide (x = k)) by
    have := h removed [] k
    rw [buildRemovedMap, this, cmGet]
    omega
  intro lines
  induction lines with
  | nil => intro m k; simp
  | cons line rest ih =>
    intro m k
    rw [List.foldl_cons, ih, cmGet_cmSet]
    rw [List.map_cons, List.countP_cons]
    by_cases h : k = normalizeLine line
    · rw [if_pos h, if_pos (by simp [h.symm]), h]
      omega
    · rw [if_neg h, if_neg (by simp; exact fun hh => h hh.symm)]
      omega

theorem consumeAdded_cancels :
    ∀ (added : List Str) (m : CountMap),
      (∀ k, cmGet m k = (added.map normalizeLine).countP (fun x => decide (x = k))) →
      (consumeAdded added m).1 = [] ∧ ∀ k, cmGet (consumeAdded added m).2 k = 0 := by
  intro added
  induction added with
  | nil =>
    intro m hm
    refine ⟨rfl, fun k => ?_⟩
    have := hm k
    simpa using this
  | cons line rest ih =>
    intro m hm
    rw [consumeAdded]
    have hget : cmGet m (normalizeLine line) =
        (rest.map normalizeLine).countP
          (fun x => decide (x = normalizeLine line)) + 1 := by
      have := hm (normalizeLine line)
      rw [List.map_cons, List.countP_cons] at this
      simpa using this
    rw [if_pos (show 0 < cmGet m (normalizeLine line) from by rw [hget]; omega)]
    refine ih _ (fun k => ?_)
    rw [cmGet_cmSet]
    by_cases h : k = normalizeLine line
    · rw [if_pos h, h, hget]
      omega
    · rw [if_neg h]
      have := hm k
      rw [List.map_cons, List.countP_cons,
        if_neg (by simp; exact fun hh => h hh.symm)] at this
      simpa using this

theorem cmKeys_cmSet (m : CountMap) (k : Str) (v : Nat) :
    cmKeys (cmSet m k v) = if k ∈ cmKeys m then cmKeys m else cmKeys m ++ [k] := by
  induction m with
  | nil => simp [cmSet, cmKeys]
  | cons e rest ih =>
    obtain ⟨ek, ev⟩ := e
    rw [cmSet]
    by_cases h1 : ek = k
    · rw [if_pos h1, show cmKeys ((ek, ev) :: rest) = ek :: cmKeys rest from rfl,
        if_pos (by simp [h1])]
      rfl
    · rw [if_neg h1, show cmKeys ((ek, ev) :: cmSet rest k v) = ek :: cmKeys (cmSet rest k v)
        from rfl, ih]
      by_cases h2 : k ∈ cmKeys rest
      · rw [if_pos h2, if_pos (by simp [show cmKeys ((ek, ev) :: rest) = ek :: cmKeys rest
          from rfl, h2])]
        rfl
      · rw [if_neg h2, if_neg (by
          rw [show cmKeys ((ek, ev) :: rest) = ek :: cmKeys rest from rfl]
          simp only [List.mem_cons, not_or]
          exact ⟨fun hh => h1 hh.symm, h2⟩)]
        rfl

theorem cmSet_keys_nodup (m : CountMap) (k : Str) (v : Nat)
    (h : (cmKeys m).Nodup) : (cmKeys (cmSet m k v)).Nodup := by
  rw [cmKeys_cmSet]
  by_cases h2 : k ∈ cmKeys m
  · rwa [if_pos h2]
  · rw [if_neg h2]
    simpa [List.nodup_append] using ⟨h, h2⟩

theorem buildRemovedMap_nodup (removed : List Str) :
    (cmKeys (buildRemovedMap removed)).Nodup := by
  suffices h : ∀ (lines : List Str) (m : CountMap), (cmKeys m).Nodup →
      (cmKeys (lines.foldl (fun m line =>
        cmSet m (normalizeLine line) (cmGet m (normalizeLine line) + 1)) m)).Nodup by
    exact h removed [] (by simp [cmKeys])
  intro lines
  induction lines with
  | nil => intro m hm; simpa using hm
  | cons line rest ih =>
    intro m hm
    rw [List.foldl_cons]
    exact ih _ (cmSet_keys_nodup m _ _ hm)

theorem consumeAdded_keys_nodup :
    ∀ (added : List Str) (m : CountMap), (cmKeys m).Nodup →
      (cmKeys (consumeAdded added m).2).Nodup := by
  intro added
  induction added with
  | nil => intro m hm; exact hm
  | cons line rest ih =>
    intro m hm
    rw [consumeAdded]
    by_cases h : 0 < cmGet m (normalizeLine line)
    · rw [if_pos h]
      exact ih _ (cmSet_keys_nodup m _ _ hm)
    · rw [if_neg h]
      exact ih m hm

theorem cmGet_zero_of_not_mem (m : CountMap) (k : Str) (h : k ∉ cmKeys m) :
    cmGet m k = 0 := by
  induction m with
  | nil => rfl
  | cons e rest ih =>
    obtain ⟨ek, ev⟩ := e
    rw [cmGet, if_neg (by
      intro hh
      exact h (by simp [cmKeys, hh]))]
    exact ih (fun hh => h (by simp [cmKeys] at hh ⊢; exact Or.inr hh))

theorem filter_pos_nil_of_all_zero :
    ∀ m : CountMap, (∀ k, cmGet m k = 0) → (cmKeys m).Nodup →
      m.filter (fun e => 0 < e.2) = [] := by
  intro m
  induction m with
  | nil => intro _ _; rfl
  | cons e rest ih =>
    intro hz hnd
    obtain ⟨ek, ev⟩ := e
    have hev : ev = 0 := by
      have := hz ek
      rwa [cmGet, if_pos rfl] at this
    rw [List.filter_cons, if_neg (by simp [hev])]
    refine ih (fun k => ?_) ?_
    · by_cases h : k = ek
      · subst h
        have hk : k ∉ cmKeys rest := by
          have := hnd
          rw [show cmKeys ((k, ev) :: rest) = k :: cmKeys rest from rfl] at this
          exact (List.nodup_cons.mp this).1
        exact cmGet_zero_of_not_mem rest k hk
      · have := hz k
        rwa [cmGet, if_neg (fun hh => h hh.symm)] at this
    · have := hnd
      rw [show cmKeys ((ek, ev) :: rest) = ek :: cmKeys rest from rfl] at this
      exact (List.nodup_cons.mp this).2

/-- C9: for every diff block in which the multiset of normalized added lines
equals the multiset of normalized removed lines (pure relocation of identical
lines), the reconciler's net-lines output is empty: no net-added and no
net-removed lines survive cancellation. -/
theorem parseDiffLines_pure_move_cancels (block : Str)
    (h : ((parseDiffLines block).addedLines.map normalizeLine).Perm
      ((parseDiffLines block).removedLines.map normalizeLine)) :
    (parseDiffLines block).cleanedLines = [] := by
  unfold parseDiffLines at h ⊢
  dsimp only at h ⊢
  set cls := classifyLines (splitOnChar '\n' block)
  set added := cls.2.2.1
  set removed := cls.2.2.2.1
  have hcount : ∀ k, cmGet (buildRemovedMap removed) k =
      (added.map normalizeLine).countP (fun x => decide (x = k)) := by
    intro k
    rw [buildRemovedMap_get]
    exact (h.countP_eq (fun x => decide (x = k))).symm
  obtain ⟨hfst, hzero⟩ := consumeAdded_cancels added (buildRemovedMap removed) hcount
  have hnodup : (cmKeys (consumeAdded added (buildRemovedMap removed)).2).Nodup :=
    consumeAdded_keys_nodup added _ (buildRemovedMap_nodup removed)
  rw [hfst, filter_pos_nil_of_all_zero _ hzero hnodup]
  rfl

/-- C9 witness: a hunk that merely swaps two lines reconciles to no net
lines. -/
theorem parseDiffLines_pure_move_cancels_witness :
    ((parseDiffLines (str "@@ -1,2 +1,2 @@\n-alpha\n-beta\n+beta\n+alpha")).addedLines.map
      normalizeLine).Perm
      ((parseDiffLines (str "@@ -1,2 +1,2 @@\n-alpha\n-beta\n+beta\n+alpha")).removedLines.map
        normalizeLine) ∧
    (parseDiffLines (str "@@ -1,2 +1,2 @@\n-alpha\n-beta\n+beta\n+alpha")).cleanedLines = [] :=
  ⟨by decide, parseDiffLines_pure_move_cancels _ (by decide)⟩

/-! ### C8: the lockfile summarizer -/

theorem bne_eq_decide_ne (y x : Str) : (!(y == x)) = decide (¬ y = x) := by
  by_cases h : y = x <;> simp [h]

theorem foldlDedup_eq (xs : List Str) :
    ∀ p : List Str,
      foldlDedup p xs = p ++ (dedupKeepFirst xs).filter (fun y => decide (y ∉ p)) := by
  induction xs with
  | nil => intro p; simp [foldlDedup, dedupKeepFirst]
  | cons x rest ih =>
    intro p
    rw [show foldlDedup p (x :: rest) =
      foldlDedup (if x ∈ p then p else p ++ [x]) rest from rfl, ih]
    rw [dedupKeepFirst, List.filter_cons]
    by_cases hx : x ∈ p
    · rw [if_pos hx, if_neg (by simp [hx])]
      congr 1
      rw [List.filter_filter]
      refine List.filter_congr (fun y _ => ?_)
      by_cases hyx : y = x
      · subst hyx; simp [hx]
      · simp [hyx, bne_eq_decide_ne]
    · rw [if_neg hx, if_pos (by simp [hx])]
      rw [List.append_assoc, List.singleton_append]
      congr 2
      rw [List.filter_filter]
      refine List.filter_congr (fun y _ => ?_)
      by_cases hyx : y = x
      · subst hyx; simp
      · simp [hyx, bne_eq_decide_ne, List.mem_append]

theorem foldlDedup_nil_eq (xs : List Str) : foldlDedup [] xs = dedupKeepFirst xs := by
  rw [foldlDedup_eq]
  simp

theorem foldlDedup_cons (p : List Str) (x : Str) (xs : List Str) :
    foldlDedup p (x :: xs) = foldlDedup (if x ∈ p then p else p ++ [x]) xs := rfl

theorem lockScan_go (lines : List Str) :
    ∀ (a r : Nat) (p : List Str),
      lines.foldl lockStep (a, r, p) =
        (a + specLockAdds lines, r + specLockRemovals lines, foldlDedup p (pkgList lines)) := by
  induction lines with
  | nil =>
    intro a r p
    simp [specLockAdds, specLockRemovals, pkgList, foldlDedup]
  | cons line rest ih =>
    intro a r p
    rw [List.foldl_cons]
    cases line with
    | nil =>
      rw [show lockStep (a, r, p) [] = (a, r, p) from rfl, ih]
      simp [specLockAdds, specLockRemovals, pkgList, List.filter_cons, List.filterMap_cons]
    | cons m tail =>
      by_cases hm : m = '+' ∨ m = '-'
      · have hstep : lockStep (a, r, p) (m :: tail) =
            ((if versionFieldTest tail = true ∧ m = '+' then a + 1 else a),
             (if versionFieldTest tail = true ∧ m = '-' then r + 1 else r),
             (match pkgFromLine tail with
              | some name => if name ∈ p then p else p ++ [name]
              | none => p)) := by
          rw [lockStep, if_pos hm]
        rw [hstep, ih]
        simp only [specLockAdds, specLockRemovals, pkgList, List.filter_cons,
          List.filterMap_cons]
        by_cases hv : versionFieldTest tail = true
        · rcases hm with hplus | hminus
          · rw [if_pos ⟨hv, hplus⟩,
              if_neg (fun hh => by rw [hplus] at hh; exact absurd hh.2 (by decide)),
              if_pos (show (decide (m = '+') && versionFieldTest tail) = true from by
                simp [hplus, hv]),
              if_neg (show ¬ (decide (m = '-') && versionFieldTest tail) = true from by
                simp [hplus]),
              show (if m = '+' ∨ m = '-' then pkgFromLine tail else none) =
                pkgFromLine tail from if_pos (Or.inl hplus)]
            cases hp : pkgFromLine tail with
            | none =>
              simp only [List.length_cons, List.filterMap_cons, Prod.mk.injEq]
              exact ⟨by omega, trivial⟩
            | some name =>
              simp only [List.length_cons, List.filterMap_cons, Prod.mk.injEq,
                foldlDedup_cons]
              exact ⟨by omega, trivial⟩
          · rw [if_neg (fun hh => by rw [hminus] at hh; exact absurd hh.2 (by decide)),
              if_pos ⟨hv, hminus⟩,
              if_neg (show ¬ (decide (m = '+') && versionFieldTest tail) = true from by
                simp [hminus]),
              if_pos (show (decide (m = '-') && versionFieldTest tail) = true from by
                simp [hminus, hv]),
              show (if m = '+' ∨ m = '-' then pkgFromLine tail else none) =
                pkgFromLine tail from if_pos (Or.inr hminus)]
            cases hp : pkgFromLine tail with
            | none =>
              simp only [List.length_cons, List.filterMap_cons, Prod.mk.injEq]
              exact ⟨trivial, by omega, trivial⟩
            | some name =>
              simp only [List.length_cons, List.filterMap_cons, Prod.mk.injEq,
                foldlDedup_cons]
              exact ⟨trivial, by omega, trivial⟩
        · rw [if_neg (fun hh => hv hh.1), if_neg (fun hh => hv hh.1),
            if_neg (show ¬ (decide (m = '+') && versionFieldTest tail) = true from by
              cases hvt : versionFieldTest tail with
              | false => simp
              | true => exact absurd hvt hv),
            if_neg (show ¬ (decide (m = '-') && versionFieldTest tail) = true from by
              cases hvt : versionFieldTest tail with
              | false => simp
              | true => exact absurd hvt hv),
            show (if m = '+' ∨ m = '-' then pkgFromLine tail else none) =
              pkgFromLine tail from if_pos hm]
          cases hp : pkgFromLine tail with
          | none =>
            simp only [List.filterMap_cons, Prod.mk.injEq]
            try trivial
          | some name =>
            simp only [List.filterMap_cons, Prod.mk.injEq, foldlDedup_cons]
            try trivial
      · rw [show lockStep (a, r, p) (m :: tail) = (a, r, p) from by
          rw [lockStep, if_neg hm], ih]
        simp only [specLockAdds, specLockRemovals, pkgList, List.filter_cons,
          List.filterMap_cons]
        have hm1 : ¬ m = '+' := fun hh => hm (Or.inl hh)
        have hm2 : ¬ m = '-' := fun hh => hm (Or.inr hh)
        rw [if_neg (show ¬ (decide (m = '+') && versionFieldTest tail) = true from by
            simp [hm1]),
          if_neg (show ¬ (decide (m = '-') && versionFieldTest tail) = true from by
            simp [hm2]),
          show (if m = '+' ∨ m = '-' then pkgFromLine tail else none) = none from
            if_neg hm]
        try simp

theorem lockScanL_eq (lines : List Str) :
    lockScanL lines =
      (specLockAdds lines, specLockRemovals lines, dedupKeepFirst (pkgList lines)) := by
  rw [lockScanL, lockScan_go, foldlDedup_nil_eq]
  simp

/-- C8 (amended): the lockfile summarizer always emits exactly one line.
The count it reports is N, the maximum of the version-field additions, the
version-field removals and the number of distinct extracted package names;
the plain `lockfile updated` line appears exactly when N = 0, which requires
not only that no version-field changes were detected but also that no
package name was extracted from any changed line; when N is positive the
line reports N together with at most the first three package names. -/
theorem summarizeLockfile_characterization :
    ∀ (block filePath : Str),
      (summarizeLockfile block filePath).length = 1 ∧
      (max (max (specLockAdds (splitOnChar '\n' block))
            (specLockRemovals (splitOnChar '\n' block)))
          (dedupKeepFirst (pkgList (splitOnChar '\n' block))).length = 0 ↔
        specLockAdds (splitOnChar '\n' block) = 0 ∧
        specLockRemovals (splitOnChar '\n' block) = 0 ∧
        dedupKeepFirst (pkgList (splitOnChar '\n' block)) = []) ∧
      (max (max (specLockAdds (splitOnChar '\n' block))
            (specLockRemovals (splitOnChar '\n' block)))
          (dedupKeepFirst (pkgList (splitOnChar '\n' block))).length = 0 →
        summarizeLockfile block filePath =
          [nodeBasename filePath ++ str ": lockfile updated"]) ∧
      (0 < max (max (specLockAdds (splitOnChar '\n' block))
            (specLockRemovals (splitOnChar '\n' block)))
          (dedupKeepFirst (pkgList (splitOnChar '\n' block))).length →
        summarizeLockfile block filePath =
          [nodeBasename filePath ++ str ": " ++
            natToStr (max (max (specLockAdds (splitOnChar '\n' block))
              (specLockRemovals (splitOnChar '\n' block)))
              (dedupKeepFirst (pkgList (splitOnChar '\n' block))).length) ++
            str " version entries updated" ++
            (if 0 < (dedupKeepFirst (pkgList (splitOnChar '\n' block))).length then
              str " (" ++ joinWith (str ", ")
                ((dedupKeepFirst (pkgList (splitOnChar '\n' block))).take 3) ++
                (if 3 < (dedupKeepFirst (pkgList (splitOnChar '\n' block))).length then
                  str ", ..." else []) ++ str ")"
            else [])]) := by
  intro block filePath
  rw [summarizeLockfile]
  dsimp only
  rw [lockScanL_eq]
  dsimp only
  refine ⟨?_, ?_, ?_, ?_⟩
  · by_cases h0 : max (max (specLockAdds (splitOnChar '\n' block))
        (specLockRemovals (splitOnChar '\n' block)))
        (dedupKeepFirst (pkgList (splitOnChar '\n' block))).length = 0
    · rw [if_pos h0]
      rfl
    · rw [if_neg h0]
      rfl
  · constructor
    · intro h0
      refine ⟨by omega, by omega, ?_⟩
      have hl : (dedupKeepFirst (pkgList (splitOnChar '\n' block))).length = 0 := by omega
      exact List.length_eq_zero.mp hl
    · rintro ⟨h1, h2, h3⟩
      rw [h1, h2, h3]
      rfl
  · intro h0
    rw [if_pos h0]
  · intro h0
    rw [if_neg (by omega)]

/-- C8 counterexample: the block `+ /foo@1.0.0` contains no version-field
addition or removal, yet the summarizer does not emit the plain
`lockfile updated` line: the extracted package name alone drives the
reported count to 1. -/
theorem summarizeLockfile_no_version_counterexample :
    specLockAdds (splitOnChar '\n' (str "+ /foo@1.0.0")) = 0 ∧
    specLockRemovals (splitOnChar '\n' (str "+ /foo@1.0.0")) = 0 ∧
    summarizeLockfile (str "+ /foo@1.0.0") (str "package-lock.json") =
      [str "package-lock.json: 1 version entries updated (foo)"] ∧
    summarizeLockfile (str "+ /foo@1.0.0") (str "package-lock.json") ≠
      [str "package-lock.json: lockfile updated"] := by
  refine ⟨by decide, by decide, by decide, by decide⟩

/-! ### C4: length control in the bounded variant -/

theorem dropRightWhileP_length_le (q : Char → Bool) (l : Str) :
    (dropRightWhileP q l).length ≤ l.length := by
  rw [dropRightWhileP, List.length_reverse]
  calc (l.reverse.dropWhile q).length ≤ l.reverse.length := length_dropWhile_le' _ _
  _ = l.length := List.length_reverse l

theorem trimList_length_le (l : Str) : (trimList l).length ≤ l.length := by
  rw [trimList]
  calc (dropRightWhileP isWsChar (l.dropWhile isWsChar)).length
      ≤ (l.dropWhile isWsChar).length := dropRightWhileP_length_le _ _
  _ ≤ l.length := length_dropWhile_le' _ _

theorem findSepCut_some (v : Str) (m : Nat) :
    ∀ (seps : List Str) (i : Nat), findSepCut v m seps = some i →
      0 < i ∧ i ≤ m ∧ 10 ≤ (trimList (v.take i)).length := by
  intro seps
  induction seps with
  | nil =>
    intro i h
    rw [findSepCut] at h
    exact Option.noConfusion h
  | cons sep rest ih =>
    intro i h
    rw [findSepCut] at h
    cases hf : firstIdxOfSub v sep with
    | none =>
      rw [hf] at h
      dsimp only at h
      exact ih i h
    | some j =>
      rw [hf] at h
      dsimp only at h
      by_cases hc : 0 < j ∧ j ≤ m ∧ 10 ≤ (trimList (v.take j)).length
      · rw [if_pos hc] at h
        cases h
        exact hc
      · rw [if_neg hc] at h
        exact ih i h

theorem trimToMax_length_le (v : Str) (m : Nat) (hm : 0 < m) :
    (trimToMax v m).length ≤ m := by
  rw [trimToMax]
  by_cases h1 : m = 0 ∨ v.length ≤ m
  · rw [if_pos h1]
    rcases h1 with h1 | h1
    · omega
    · exact h1
  · rw [if_neg h1]
    cases hf : findSepCut v m trimSeparators with
    | some i =>
      obtain ⟨_, him, _⟩ := findSepCut_some v m trimSeparators i hf
      calc (trimList (v.take i)).length ≤ (v.take i).length := trimList_length_le _
      _ ≤ i := by rw [List.length_take]; omega
      _ ≤ m := him
    | none =>
      calc (trimList (dropRightWhileP isTrailJunk (v.take m))).length
          ≤ (dropRightWhileP isTrailJunk (v.take m)).length := trimList_length_le _
      _ ≤ (v.take m).length := dropRightWhileP_length_le _ _
      _ ≤ m := by rw [List.length_take]; omega

theorem expandLoop_bound (candidate tokenSnippet pfxStr joiner : Str) (maxLength : Nat)
    (hmax : 0 < maxLength) :
    ∀ (frags : List Str) (appended : Str),
      (appended = [] ∨
        (collapseWsTrim (candidate ++ pfxStr ++ appended ++ tokenSnippet)).length ≤
          maxLength) →
      (expandLoop candidate tokenSnippet pfxStr joiner maxLength frags appended = [] ∨
        (collapseWsTrim (candidate ++ pfxStr ++
          expandLoop candidate tokenSnippet pfxStr joiner maxLength frags appended ++
          tokenSnippet)).length ≤ maxLength) := by
  intro frags
  induction frags with
  | nil =>
    intro appended h
    rw [expandLoop]
    exact h
  | cons frag rest ih =>
    intro appended h
    rw [expandLoop]
    by_cases hg : 0 < maxLength ∧ maxLength <
        (collapseWsTrim (candidate ++ pfxStr ++
          (if appended = [] then frag else appended ++ joiner ++ frag) ++
          tokenSnippet)).length
    · rw [if_pos hg]
      exact h
    · rw [if_neg hg]
      apply ih
      right
      have hb : ¬ maxLength <
          (collapseWsTrim (candidate ++ pfxStr ++
            (if appended = [] then frag else appended ++ joiner ++ frag) ++
            tokenSnippet)).length :=
        fun hl => hg ⟨hmax, hl⟩
      omega

theorem ensureSubjectLengthWeb_le (lang : Lang) (subject : Str) (diff : PreprocessResult)
    (requiredTokens : List Str) (minLength maxLength : Nat) (hm : 0 < maxLength) :
    (ensureSubjectLengthWeb lang subject diff requiredTokens minLength maxLength).length ≤
      maxLength := by
  rw [ensureSubjectLengthWeb]
  set candidate := if 0 < maxLength ∧ maxLength < subject.length then
    trimToMax subject maxLength else subject with hcdef
  have hcand : candidate.length ≤ maxLength := by
    rw [hcdef]
    by_cases hc : 0 < maxLength ∧ maxLength < subject.length
    · rw [if_pos hc]
      exact trimToMax_length_le _ _ hm
    · rw [if_neg hc]
      have : ¬ maxLength < subject.length := fun hl => hc ⟨hm, hl⟩
      omega
  by_cases hmin : minLength = 0 ∨ minLength ≤ candidate.length
  · rw [if_pos hmin]
    exact hcand
  · rw [if_neg hmin]
    set snippet := if requiredTokens ≠ [] then
      ' ' :: joinWith (str ", ") (requiredTokens.take 4) else []
    set joiner := if lang = .zh then str "；" else str "; "
    set pfxStr := if lang = .zh then str "，涉及：" else str " — "
    set appended := expandLoop candidate snippet pfxStr joiner maxLength
      (buildDetailFragments diff) [] with hadef
    set expanded := if appended ≠ [] then
      collapseWsTrim (candidate ++ pfxStr ++ appended ++ snippet) else candidate with hedef
    have happ := expandLoop_bound candidate snippet pfxStr joiner maxLength hm
      (buildDetailFragments diff) [] (Or.inl rfl)
    have hexp : expanded.length ≤ maxLength := by
      rw [hedef]
      by_cases ha : appended ≠ []
      · rw [if_pos ha]
        rcases happ with h0 | h0
        · exact absurd h0 ha
        · exact h0
      · rw [if_neg ha]
        exact hcand
    by_cases hpad : 0 < minLength ∧ expanded.length < minLength ∧ snippet ≠ [] ∧
        !(containsSub expanded (trimList snippet))
    · rw [if_pos hpad]
      rw [if_pos hm]
      exact trimToMax_length_le _ _ hm
    · rw [if_neg hpad]
      exact hexp

theorem ensureSubjectLengthWeb_id (lang : Lang) (subject : Str) (diff : PreprocessResult)
    (requiredTokens : List Str) (minLength maxLength : Nat)
    (h1 : subject.length ≤ maxLength) (h2 : minLength ≤ subject.length) :
    ensureSubjectLengthWeb lang subject diff requiredTokens minLength maxLength = subject := by
  rw [ensureSubjectLengthWeb]
  rw [if_neg (show ¬ (0 < maxLength ∧ maxLength < subject.length) from fun hc => by omega),
    if_pos (Or.inr h2)]

theorem fiosAux_spec (pat : Str) :
    ∀ (hay : Str) (k i : Nat), fiosAux pat hay k = some i →
      k ≤ i ∧ subAt pat (hay.drop (i - k)) = true ∧
        ∀ j, j < i - k → subAt pat (hay.drop j) = false := by
  intro hay
  induction hay with
  | nil =>
    intro k i h
    rw [fiosAux] at h
    by_cases hs : subAt pat [] = true
    · rw [if_pos hs] at h
      cases h
      refine ⟨Nat.le_refl _, ?_, ?_⟩
      · simpa using hs
      · intro j hj
        omega
    · rw [if_neg hs] at h
      exact Option.noConfusion h
  | cons c rest ih =>
    intro k i h
    rw [fiosAux] at h
    by_cases hs : subAt pat (c :: rest) = true
    · rw [if_pos hs] at h
      cases h
      refine ⟨Nat.le_refl _, ?_, ?_⟩
      · simpa using hs
      · intro j hj
        omega
    · rw [if_neg hs] at h
      obtain ⟨hk, h1, h2⟩ := ih (k + 1) i h
      refine ⟨by omega, ?_, ?_⟩
      · rw [show i - k = (i - (k + 1)) + 1 from by omega, List.drop_succ_cons]
        exact h1
      · intro j hj
        cases j with
        | zero =>
          rw [List.drop_zero]
          exact Bool.eq_false_iff.mpr hs
        | succ j' =>
          rw [List.drop_succ_cons]
          exact h2 j' (by omega)

theorem firstIdxOfSub_first (hay pat : Str) (i : Nat) (h : firstIdxOfSub hay pat = some i) :
    subAt pat (hay.drop i) = true ∧ ∀ j, j < i → subAt pat (hay.drop j) = false := by
  obtain ⟨hk, h1, h2⟩ := fiosAux_spec pat hay 0 i h
  rw [Nat.sub_zero] at h1 h2
  exact ⟨h1, h2⟩

/-- C4 (amended): in the bounded variant, for every subject, diff, token
list and positive maximum the normalized subject has length at most the
maximum (so at most 120 at the 80 and 120 settings), and a subject already
within the minimum-to-maximum window is returned unchanged. When a subject
longer than the maximum is truncated, the candidate cut index for each
separator in priority order (em-dash, full-width comma, semicolon, comma,
colon) is the FIRST occurrence of that separator in the whole string (not
the last safe separator at or before the maximum), accepted when it is
positive, at most the maximum, and leaves a trimmed cut of at least 10
characters; no lower bound of min(80, achievable) on the result is
guaranteed. -/
theorem ensureSubjectLengthWeb_bounded :
    (∀ (lang : Lang) (subject : Str) (diff : PreprocessResult) (tokens : List Str)
        (minLength maxLength : Nat), 0 < maxLength →
      (ensureSubjectLengthWeb lang subject diff tokens minLength maxLength).length ≤
        maxLength) ∧
    (∀ (lang : Lang) (subject : Str) (diff : PreprocessResult) (tokens : List Str),
      80 ≤ subject.length → subject.length ≤ 120 →
      ensureSubjectLengthWeb lang subject diff tokens 80 120 = subject) ∧
    (∀ (hay pat : Str) (i : Nat), firstIdxOfSub hay pat = some i →
      subAt pat (hay.drop i) = true ∧ ∀ j, j < i → subAt pat (hay.drop j) = false) ∧
    (∀ (v : Str) (m i : Nat), findSepCut v m trimSeparators = some i →
      0 < i ∧ i ≤ m ∧ 10 ≤ (trimList (v.take i)).length) := by
  refine ⟨?_, ?_, ?_, ?_⟩
  · intro lang subject diff tokens minLength maxLength hm
    exact ensureSubjectLengthWeb_le lang subject diff tokens minLength maxLength hm
  · intro lang subject diff tokens h1 h2
    exact ensureSubjectLengthWeb_id lang subject diff tokens 80 120 h2 h1
  · intro hay pat i h
    exact firstIdxOfSub_first hay pat i h
  · intro v m i h
    exact findSepCut_some v m trimSeparators i h

set_option maxRecDepth 16384 in
/-- C4 counterexample: a 131-character subject with commas at indices 12
and 100. The last safe separator at or before position 120 is the comma at
index 100, whose cut keeps 100 characters, but `trimToMax` cuts at the
FIRST comma and returns the 12-character prefix; through the normalizer the
result is far below the 80-character minimum. -/
theorem trimToMax_first_separator_counterexample :
    longSubjectTwoCommas.length = 131 ∧
    subAt (str ",") (longSubjectTwoCommas.drop 100) = true ∧
    (trimList (longSubjectTwoCommas.take 100)).length = 100 ∧
    trimToMax longSubjectTwoCommas 120 = str "aaaaaaaaaaaa" ∧
    ensureSubjectLengthWeb .en longSubjectTwoCommas diffEmpty [] 80 120 =
      str "aaaaaaaaaaaa" ∧
    (str "aaaaaaaaaaaa").length = 12 := by
  refine ⟨by decide, by decide, by decide, by decide, by decide, by decide⟩

/-! ### C5: short-but-otherwise-valid subjects -/

/-- C5 (amended): in the webview variant, a candidate subject whose only
validation failure is being shorter than the configured minimum is kept:
when the cleaned subject is non-empty, passes the required-token check, is
not generic and contains no diff-stat syntax, the normalizer does not call
the deterministic synthesizer; it returns the style-adjusted, length-handled
cleaned subject. In the preprocess variant this does NOT hold: there any
reason, including `tooShort` alone, discards the model's subject in favour
of deterministic synthesis. -/
theorem ensureSpecificSubjectWeb_keeps_short_subject
    (lang : Lang) (subject : Str) (requiredTokens : List Str)
    (requiredTokenCount minSubjectLength maxSubjectLength : Nat)
    (diff : PreprocessResult) (cfg : PromptConfig)
    (h1 : trimList subject ≠ [])
    (h2 : (matchRequiredTokens (trimList subject) requiredTokens requiredTokenCount).ok =
      true)
    (h3 : isTooGeneric (trimList subject) = false)
    (h4 : containsDiffStats (trimList subject) = false) :
    ensureSpecificSubjectWeb lang subject requiredTokens requiredTokenCount
        minSubjectLength maxSubjectLength diff cfg =
      applySubjectStyle lang
        (if 0 < minSubjectLength ∨ 0 < maxSubjectLength then
          ensureSubjectLengthWeb lang (trimList subject) diff requiredTokens
            minSubjectLength maxSubjectLength
        else trimList subject) cfg := by
  rw [ensureSpecificSubjectWeb]
  have hfalse : ((if trimList subject = [] then [str "empty"] else []) ++
      (if !(matchRequiredTokens (trimList subject) requiredTokens requiredTokenCount).ok
        then [str "missingTokens"] else []) ++
      (if isTooGeneric (trimList subject) then [str "generic"] else []) ++
      (if containsDiffStats (trimList subject) then [str "diffStats"] else []) ++
      (if 0 < minSubjectLength ∧ (trimList subject).length < minSubjectLength
        then [str "tooShort"] else [])).any (fun r => !(r == str "tooShort")) = false := by
    rw [if_neg h1, if_neg (show ¬ (!(matchRequiredTokens (trimList subject) requiredTokens
        requiredTokenCount).ok) = true from by rw [h2]; decide),
      if_neg (show ¬ isTooGeneric (trimList subject) = true from by rw [h3]; decide),
      if_neg (show ¬ containsDiffStats (trimList subject) = true from by rw [h4]; decide)]
    by_cases hts : 0 < minSubjectLength ∧ (trimList subject).length < minSubjectLength
    · rw [if_pos hts]
      decide
    · rw [if_neg hts]
      decide
  rw [if_neg (show ¬ _ = true from fun hh => by rw [hfalse] at hh; exact Bool.noConfusion hh)]

/-- C5 witness: the short subject `fix auth.ts typo` (16 characters, minimum
80) passes every other check and is kept and expanded, not replaced by
synthesis. -/
theorem ensureSpecificSubjectWeb_keeps_short_subject_witness :
    ensureSpecificSubjectWeb .en (str "fix auth.ts typo") [str "auth.ts"] 1 80 120
        diffAuth cfgI =
      applySubjectStyle .en
        (if 0 < 80 ∨ 0 < 120 then
          ensureSubjectLengthWeb .en (trimList (str "fix auth.ts typo")) diffAuth
            [str "auth.ts"] 80 120
        else trimList (str "fix auth.ts typo")) cfgI :=
  ensureSpecificSubjectWeb_keeps_short_subject .en (str "fix auth.ts typo") [str "auth.ts"]
    1 80 120 diffAuth cfgI (by decide) (by decide) (by decide) (by decide)

set_option maxRecDepth 16384 in
/-- C5 counterexample: in the preprocess variant the subject
`improve parser.rs token scanning` is non-empty, matches its required token,
is not generic and has no diff stats, yet with minimum length 300 its only
failure (`tooShort`) already routes to deterministic synthesis and the
model's wording is discarded. -/
theorem ensureSpecificSubjectPre_discards_short_subject_counterexample :
    trimList (str "improve parser.rs token scanning") ≠ [] ∧
    (matchRequiredTokens (trimList (str "improve parser.rs token scanning"))
      [str "parser.rs"] 1).ok = true ∧
    isTooGeneric (trimList (str "improve parser.rs token scanning")) = false ∧
    containsDiffStats (trimList (str "improve parser.rs token scanning")) = false ∧
    ensureSpecificSubjectPre .en (str "improve parser.rs token scanning") [str "parser.rs"]
        1 300 diffParser cfgI =
      buildSpecificSubjectPre .en diffParser [str "parser.rs"] 1 cfgI 300 ∧
    containsSub (ensureSpecificSubjectPre .en (str "improve parser.rs token scanning")
        [str "parser.rs"] 1 300 diffParser cfgI) (str "improve") = false := by
  refine ⟨by decide, by decide, by decide, by decide, by decide, by decide⟩

/-! ### C3: cancellation, retry and fallback of the generation pipeline -/

/-- C3 (amended): under a monotone abort signal, a raised run was always a
cancelled run, and outside the retry-failure path (stream attempt failed or
was aborted mid-stream, catch-time check saw no cancellation, and the
non-streaming retry also fails) raising is exactly equivalent to
cancellation. Exactly one non-streaming retry happens precisely when the
streaming attempt did not complete and neither the entry check nor the
catch-time check saw a cancellation. On the retry-failure path the run
returns the deterministic fallback message — even if the cancellation
arrives while the retry is in flight, so a cancelled run does not always
surface the cancellation. -/
theorem runGenerate_characterization (lang : Lang) (env : GenEnv)
    (diff : PreprocessResult) (cfg : PromptConfig) (hmono : MonoEnv env) :
    ((runGenerate lang env diff cfg).1 = .raised → cancelledDuring env = true) ∧
    (¬ ((env.stream = .abortedMid ∨ env.stream = .failed) ∧ env.abortAtCatch = false ∧
        env.retry = none) →
      ((runGenerate lang env diff cfg).1 = .raised ↔ cancelledDuring env = true)) ∧
    ((runGenerate lang env diff cfg).2 = 1 ↔
      (env.stream = .abortedMid ∨ env.stream = .failed) ∧ env.abortAtEntry = false ∧
        env.abortAtCatch = false) ∧
    (env.abortAtEntry = false → env.abortAtCatch = false → env.retry = none →
      (env.stream = .abortedMid ∨ env.stream = .failed) →
      runGenerate lang env diff cfg =
        (.returned (applyPromptConfigPre (generateFallbackMessage lang diff cfg) cfg), 1)) := by
  obtain ⟨m1, m2, m3, m4⟩ := hmono
  obtain ⟨aE, st, aC, rt, aR, aF⟩ := env
  dsimp only at m1 m2 m3 m4
  cases aE with
  | true =>
    simp [runGenerate, cancelledDuring]
  | false =>
    cases st with
    | completed c =>
      cases aF <;> simp [runGenerate, cancelledDuring]
    | abortedMid =>
      have hc : aC = true := m2 rfl
      subst hc
      simp [runGenerate, cancelledDuring]
    | failed =>
      cases aC with
      | true => simp [runGenerate, cancelledDuring]
      | false =>
        cases rt with
        | some c =>
          cases aF <;> simp [runGenerate, cancelledDuring]
        | none =>
          simp [runGenerate, cancelledDuring]

/-- C3 witness: a run whose abort signal is already set at entry raises, and
that run is indeed a cancelled run. -/
theorem runGenerate_characterization_witness :
    (runGenerate .en envEntryAborted diffApp cfgI).1 = .raised ∧
    cancelledDuring envEntryAborted = true :=
  ⟨by decide,
    ((runGenerate_characterization .en envEntryAborted diffApp cfgI
      (by unfold MonoEnv; decide)).2.1
      (by decide)).mp (by decide)⟩

/-- C3 counterexample: the streaming attempt fails without an observed
cancellation, the cancellation arrives while the failing non-streaming retry
is in flight, and the run nevertheless returns the deterministic fallback
message instead of surfacing the cancellation. -/
theorem runGenerate_cancel_during_retry_counterexample :
    MonoEnv envCancelDuringRetry ∧
    cancelledDuring envCancelDuringRetry = true ∧
    runGenerate .en envCancelDuringRetry diffApp cfgI =
      (.returned (applyPromptConfigPre (generateFallbackMessage .en diffApp cfgI) cfgI), 1) ∧
    (runGenerate .en envCancelDuringRetry diffApp cfgI).1 ≠ .raised := by
  refine ⟨by unfold MonoEnv; decide, by decide, by decide, by decide⟩

/-! ### C1: deterministic synthesis versus its own validator -/

theorem dedupFilterTokens_head (b : Str) (X : List Str) (hl : 1 < b.length) :
    ∃ T, dedupFilterTokens (b :: X) [] = b :: T := by
  refine ⟨dedupFilterTokens X ([] ++ [lowerL b]), ?_⟩
  rw [dedupFilterTokens, if_neg (by simp), if_pos hl]

theorem wordsOf_eq_nil_forall (p : Char → Bool) :
    ∀ v : Str, wordsOf p v = [] → ∀ c ∈ v, p c = false := by
  intro v
  induction v with
  | nil =>
    intro _ c hc
    exact absurd hc (List.not_mem_nil c)
  | cons d v' ih =>
    intro h c hc
    rw [wordsOf_cons] at h
    by_cases hp : p d
    · rw [if_pos hp] at h
      exact absurd h (List.cons_ne_nil _ _)
    · rw [if_neg hp] at h
      rcases List.mem_cons.mp hc with rfl | hc'
      · exact Bool.eq_false_iff.mpr hp
      · exact ih h c hc'

theorem wordsOf_append_sep (p : Char → Bool) (s : Char) (hs : p s = false) (B : Str) :
    ∀ A : Str, wordsOf p (A ++ s :: B) = wordsOf p A ++ wordsOf p B := by
  refine lengthInd (fun A ih => ?_)
  cases A with
  | nil =>
    rw [List.nil_append, wordsOf_cons, if_neg (by simp [hs]), wordsOf_nil, List.nil_append]
  | cons c A' =>
    rw [List.cons_append, wordsOf_cons, wordsOf_cons]
    by_cases hp : p c
    · rw [if_pos hp, if_pos hp]
      by_cases hall : A'.dropWhile p = []
      · have hallp : ∀ a ∈ A', p a = true := List.dropWhile_eq_nil_iff.mp hall
        have htw : A'.takeWhile p = A' := List.takeWhile_eq_self_iff.mpr hallp
        rw [List.takeWhile_append_of_pos hallp, List.dropWhile_append_of_pos hallp,
          show (s :: B).takeWhile p = [] from by
            rw [List.takeWhile_cons, if_neg (by simp [hs])],
          show (s :: B).dropWhile p = s :: B from by
            rw [List.dropWhile_cons, if_neg (by simp [hs])],
          htw, hall, List.append_nil, wordsOf_cons, if_neg (by simp [hs]), wordsOf_nil]
        simp
      · set u := A'.takeWhile p with hu
        set v := A'.dropWhile p with hv
        have hl' : u ++ v = A' := List.takeWhile_append_dropWhile p A'
        have hup : ∀ a ∈ u, p a = true := fun a ha => List.mem_takeWhile_imp ha
        obtain ⟨vh, vt, hvc⟩ := List.exists_cons_of_ne_nil hall
        have hvc' : A'.dropWhile p = vh :: vt := by rw [← hv]; exact hvc
        have hpvh : ¬ p vh = true := by
          simpa using dropWhile_head_false p A' hvc'
        have htwB : (A' ++ s :: B).takeWhile p = u := by
          rw [← hl', List.append_assoc, List.takeWhile_append_of_pos hup, hvc,
            List.cons_append, List.takeWhile_cons, if_neg hpvh, List.append_nil]
        have hdwB : (A' ++ s :: B).dropWhile p = v ++ s :: B := by
          rw [← hl', List.append_assoc, List.dropWhile_append_of_pos hup, hvc,
            List.cons_append, List.dropWhile_cons, if_neg hpvh]
        rw [htwB, hdwB]
        have hvlen : v.length < (c :: A').length := by
          have : v.length ≤ A'.length := hv ▸ length_dropWhile_le' p A'
          simpa using Nat.lt_succ_of_le this
        rw [ih v hvlen, List.cons_append]
    · rw [if_neg hp, if_neg hp]
      exact ih A' (Nat.lt_succ_self _)

/-- Collapsing whitespace runs to single spaces does not change the sequence
of maximal alphanumeric words: whitespace and the space it is replaced by are
both outside the match alphabet. -/
theorem wordsOf_collapse :
    ∀ Y : Str, wordsOf keepAlnum (lowerL (joinWords (wordsOf notWs Y))) =
      wordsOf keepAlnum (lowerL Y) := by
  refine lengthInd (fun Y ih => ?_)
  cases Y with
  | nil => rfl
  | cons c Y' =>
    by_cases hw : notWs c = true
    · rw [wordsOf_cons, if_pos hw, joinWords_cons]
      by_cases hnil : (wordsOf notWs (Y'.dropWhile notWs)).isEmpty = true
      · rw [if_pos hnil, List.append_nil]
        have hvnil : wordsOf notWs (Y'.dropWhile notWs) = [] := by
          simpa [List.isEmpty_iff] using hnil
        have hvws : ∀ a ∈ Y'.dropWhile notWs, notWs a = false :=
          wordsOf_eq_nil_forall notWs _ hvnil
        conv_rhs => rw [← List.takeWhile_append_dropWhile notWs Y',
          show (c :: (Y'.takeWhile notWs ++ Y'.dropWhile notWs)) =
            (c :: Y'.takeWhile notWs) ++ Y'.dropWhile notWs from rfl]
        simp only [lowerL, List.map_append]
        rw [wordsOf_post_nop keepAlnum ((Y'.dropWhile notWs).map lowerChar)
          (fun d hd => by
            obtain ⟨e, he, rfl⟩ := List.mem_map.mp hd
            have hws : isWsChar e = true := by simpa [notWs] using hvws e he
            exact ws_not_keep e hws)]
      · rw [if_neg hnil]
        have hvne : Y'.dropWhile notWs ≠ [] := by
          intro hv
          exact hnil (by rw [hv]; rfl)
        obtain ⟨d, v', hv⟩ := List.exists_cons_of_ne_nil hvne
        have hdws : isWsChar d = true := by
          have := dropWhile_head_false notWs Y' hv
          simpa [notWs] using this
        conv_rhs => rw [← List.takeWhile_append_dropWhile notWs Y', hv,
          show (c :: (Y'.takeWhile notWs ++ d :: v')) =
            (c :: Y'.takeWhile notWs) ++ d :: v' from rfl]
        simp only [lowerL, List.map_append, List.map_cons]
        rw [wordsOf_append_sep keepAlnum (lowerChar ' ') (by decide),
          wordsOf_append_sep keepAlnum (lowerChar d) (ws_not_keep d hdws)]
        have hlen : (Y'.dropWhile notWs).length < (c :: Y').length := by
          have := length_dropWhile_le' notWs Y'
          simp only [List.length_cons]
          omega
        have hih := ih (Y'.dropWhile notWs) hlen
        simp only [lowerL] at hih
        rw [hih, hv, List.map_cons,
          show wordsOf keepAlnum (lowerChar d :: List.map lowerChar v') =
            wordsOf keepAlnum (List.map lowerChar v') from by
              rw [wordsOf_cons, if_neg (by simp [ws_not_keep d hdws])]]
    · rw [wordsOf_cons, if_neg hw, ih Y' (Nat.lt_succ_self _)]
      have hcws : isWsChar c = true := by simpa [notWs] using hw
      conv_rhs => rw [lowerL, List.map_cons, wordsOf_cons,
        if_neg (by simp [ws_not_keep c hcws])]
      rw [lowerL]

/-- Whitespace collapsing and trimming does not change the match-normal
form. -/
theorem normalizeForMatch_collapseWsTrim (Y : Str) :
    normalizeForMatch (collapseWsTrim Y) = normalizeForMatch Y := by
  rw [normalizeForMatch, normalizeForMatch, collapseWsTrim, wordsOf_collapse]

theorem collapseWsTrim_cons_of_notWs (c : Char) (hc : notWs c = true) (Y : Str) :
    ∃ Z, collapseWsTrim (c :: Y) = c :: Z := by
  rw [collapseWsTrim, wordsOf_cons, if_pos hc, joinWords_cons]
  exact ⟨_, rfl⟩

theorem applySubjectStyle_zh (S : Str) (cfg : PromptConfig) :
    applySubjectStyle .zh S cfg = S := by
  rw [applySubjectStyle.eq_def, if_neg (fun hc => Lang.noConfusion hc.2)]

theorem normalizeForMatch_style_en (cfg : PromptConfig) (Z : Str) :
    normalizeForMatch (applySubjectStyle .en ('u' :: Z) cfg) =
      normalizeForMatch ('u' :: Z) := by
  rw [applySubjectStyle.eq_def]
  by_cases hc : cfg.subjectStyle = .sentence ∧ Lang.en = Lang.en
  · rw [if_pos hc]
    show normalizeForMatch (upperChar 'u' :: Z) = normalizeForMatch ('u' :: Z)
    rw [show upperChar 'u' = 'U' from by decide, normalizeForMatch, normalizeForMatch,
      lowerL, lowerL, List.map_cons, List.map_cons,
      show lowerChar 'U' = lowerChar 'u' from by decide]
  · rw [if_neg hc]

/-- The minimum-length controller starts its result with the subject's first
character whenever that character is not whitespace: the identity path keeps
the subject, and both expansion paths collapse a string that starts with that
character. -/
theorem ensureSubjectLengthPre_head (lang' : Lang) (c : Char) (hc : notWs c = true)
    (X : Str) (diff' : PreprocessResult) (tk : List Str) (ml : Nat) :
    ∃ Z, ensureSubjectLengthPre lang' (c :: X) diff' tk ml = c :: Z := by
  rw [ensureSubjectLengthPre]
  by_cases hid : ml = 0 ∨ ml ≤ (c :: X).length
  · rw [if_pos hid]
    exact ⟨X, rfl⟩
  · rw [if_neg hid]
    dsimp only
    repeat' split
    all_goals exact collapseWsTrim_cons_of_notWs c hc _

/-- The minimum-length controller never loses an occurrence in the
match-normal form: it either keeps the subject or appends to it and collapses
whitespace, and neither step can remove the normalized needle. -/
theorem normalizeForMatch_ensureSubjectLengthPre_ifx (lang' : Lang) (W subject : Str)
    (diff' : PreprocessResult) (tk : List Str) (ml : Nat)
    (hS : IsIfx (normalizeForMatch W) (normalizeForMatch subject)) :
    IsIfx (normalizeForMatch W)
      (normalizeForMatch (ensureSubjectLengthPre lang' subject diff' tk ml)) := by
  have hcol : ∀ R : Str, IsIfx (normalizeForMatch W)
      (normalizeForMatch (collapseWsTrim (subject ++ R))) := by
    intro R
    rw [normalizeForMatch_collapseWsTrim]
    exact hS.transI (normalizeForMatch_ifx [] subject R)
  rw [ensureSubjectLengthPre]
  by_cases hid : ml = 0 ∨ ml ≤ subject.length
  · rw [if_pos hid]
    exact hS
  · rw [if_neg hid]
    dsimp only
    repeat' split
    all_goals simp only [List.append_assoc]
    all_goals exact hcol _

/-- C1 (amended): when the top-ranked file's basename has a normalized form
of at least 3 characters, the subject built by the deterministic synthesizer
(preprocess variant) passes `matchRequiredTokens` for the token list derived
from the same diff at required count 1 — the count the pipeline derives for
diffs of at most 10 files — and for EVERY minimum subject length, including
the pipeline's derived 300: the length expansion only appends text and
collapses whitespace, neither of which can remove the normalized basename
from the subject's normal form.  Both remaining provisos are forced by the
counterexample: a basename normalizing below 3 characters yields a token no
subject can match, and at derived count 2 a diff can derive only one
matchable token, so synthesis fails its own validator there even when the
top basename satisfies the proviso. -/
theorem buildSpecificSubjectPre_passes_validator
    (lang : Lang) (diff : PreprocessResult) (cfg : PromptConfig)
    (p : FileSummary) (rest : List FileSummary) (minSubjectLength : Nat)
    (h1 : rankedFilesOf diff = p :: rest)
    (h2 : 3 ≤ (normalizeForMatch (basePart p.path)).length) :
    (matchRequiredTokens
      (buildSpecificSubjectPre lang diff
        (buildRequiredTokens ((rankedFilesOf diff).take 3)) 1 cfg minSubjectLength)
      (buildRequiredTokens ((rankedFilesOf diff).take 3)) 1).ok = true := by
  have hnl := normalizeForMatch_length_le (basePart p.path)
  have hbase_ne : basePart p.path ≠ [] := by
    intro h
    rw [h, show normalizeForMatch ([] : Str) = [] from rfl] at h2
    simp at h2
  have hbase_len : 1 < (basePart p.path).length := by omega
  obtain ⟨T, htok⟩ : ∃ T, buildRequiredTokens ((rankedFilesOf diff).take 3) =
      basePart p.path :: T := by
    rw [h1, buildRequiredTokens, show (p :: rest).take 3 = p :: rest.take 2 from rfl,
      buildRequiredTokensRaw]
    rw [if_pos (show (splitOnChar '/' p.path).getLastD [] ≠ [] from hbase_ne)]
    simp only [List.singleton_append, List.cons_append]
    exact dedupFilterTokens_head _ _ hbase_len
  have hsub : IsIfx (normalizeForMatch (basePart p.path))
      (normalizeForMatch (buildSubjectFragment p)) := by
    rw [buildSubjectFragment, normalizeForMatch_trim]
    exact normalizeForMatch_ifx [] (basePart p.path) _
  have hfrag_ne : buildSubjectFragment p ≠ [] := by
    intro h
    have hlen := hsub.length_le
    rw [h, show normalizeForMatch ([] : Str) = [] from rfl] at hlen
    rw [List.length_nil] at hlen
    omega
  have hno : ∀ P : Prop, ¬ ((1 : Nat) < 1 ∧ P) := fun P hc => absurd hc.1 (by decide)
  have htrim_ne : trimList (basePart p.path) ≠ [] := by
    intro h
    have ht := normalizeForMatch_trim (basePart p.path)
    rw [h, show normalizeForMatch ([] : Str) = [] from rfl] at ht
    rw [← ht] at h2
    simp at h2
  have hpass : ∀ S : Str,
      IsIfx (normalizeForMatch (basePart p.path)) (normalizeForMatch S) →
      (matchRequiredTokens S (basePart p.path :: T) 1).ok = true := by
    intro S hS
    rw [matchRequiredTokens, if_neg (List.cons_ne_nil _ _)]
    dsimp only
    refine decide_eq_true ?_
    have hvm : tokenMatches (normalizeForMatch S) (basePart p.path) = true := by
      rw [tokenMatches, List.any_eq_true]
      refine ⟨trimList (basePart p.path),
        (mem_expandTokenVariants_of_cond (basePart p.path)).1 htrim_ne, ?_⟩
      rw [Bool.and_eq_true]
      constructor
      · rw [normalizeForMatch_trim]
        exact decide_eq_true h2
      · rw [normalizeForMatch_trim, containsSub_iff]
        exact hS
    have hmem : basePart p.path ∈
        collectMatched (normalizeForMatch S) (basePart p.path :: T) [] :=
      (mem_collectMatched _ _ _ _).mpr (Or.inr ⟨List.mem_cons_self _ _, hvm⟩)
    have hpos := List.length_pos_of_mem hmem
    rw [show max 1 1 = 1 from rfl]
    exact hpos
  have hsubj : buildSpecificSubjectPre lang diff (basePart p.path :: T) 1 cfg
      minSubjectLength =
      applySubjectStyle lang
        (if 0 < minSubjectLength then
          ensureSubjectLengthPre lang
            ((if lang = .zh then str "更新 " else str "update ") ++ buildSubjectFragment p)
            diff (basePart p.path :: T) minSubjectLength
        else (if lang = .zh then str "更新 " else str "update ") ++ buildSubjectFragment p)
        cfg := by
    rw [buildSpecificSubjectPre, h1]
    dsimp only
    rw [if_neg hfrag_ne, if_neg (hno _)]
  have hverb : IsIfx (normalizeForMatch (buildSubjectFragment p))
      (normalizeForMatch ((if lang = .zh then str "更新 " else str "update ") ++
        buildSubjectFragment p)) := by
    have := normalizeForMatch_ifx (if lang = .zh then str "更新 " else str "update ")
      (buildSubjectFragment p) []
    rwa [List.append_nil] at this
  have hsubj0 : IsIfx (normalizeForMatch (basePart p.path))
      (normalizeForMatch ((if lang = .zh then str "更新 " else str "update ") ++
        buildSubjectFragment p)) := hsub.transI hverb
  have hs1 : IsIfx (normalizeForMatch (basePart p.path))
      (normalizeForMatch (if 0 < minSubjectLength then
        ensureSubjectLengthPre lang
          ((if lang = .zh then str "更新 " else str "update ") ++ buildSubjectFragment p)
          diff (basePart p.path :: T) minSubjectLength
      else (if lang = .zh then str "更新 " else str "update ") ++
        buildSubjectFragment p)) := by
    by_cases hm : 0 < minSubjectLength
    · rw [if_pos hm]
      exact normalizeForMatch_ensureSubjectLengthPre_ifx lang _ _ diff _ _ hsubj0
    · rw [if_neg hm]
      exact hsubj0
  have hstyle : normalizeForMatch (applySubjectStyle lang
      (if 0 < minSubjectLength then
        ensureSubjectLengthPre lang
          ((if lang = .zh then str "更新 " else str "update ") ++ buildSubjectFragment p)
          diff (basePart p.path :: T) minSubjectLength
      else (if lang = .zh then str "更新 " else str "update ") ++
        buildSubjectFragment p) cfg) =
      normalizeForMatch (if 0 < minSubjectLength then
        ensureSubjectLengthPre lang
          ((if lang = .zh then str "更新 " else str "update ") ++ buildSubjectFragment p)
          diff (basePart p.path :: T) minSubjectLength
      else (if lang = .zh then str "更新 " else str "update ") ++
        buildSubjectFragment p) := by
    cases lang with
    | zh => rw [applySubjectStyle_zh]
    | en =>
      have hu : ∃ Z, (if 0 < minSubjectLength then
          ensureSubjectLengthPre .en
            ((if Lang.en = Lang.zh then str "更新 " else str "update ") ++
              buildSubjectFragment p)
            diff (basePart p.path :: T) minSubjectLength
        else (if Lang.en = Lang.zh then str "更新 " else str "update ") ++
          buildSubjectFragment p) = 'u' :: Z := by
        rw [show (if Lang.en = Lang.zh then str "更新 " else str "update ") =
          str "update " from rfl]
        by_cases hm : 0 < minSubjectLength
        · rw [if_pos hm]
          show ∃ Z, ensureSubjectLengthPre .en ('u' :: (str "pdate " ++ buildSubjectFragment p))
            diff (basePart p.path :: T) minSubjectLength = 'u' :: Z
          exact ensureSubjectLengthPre_head .en 'u' (by decide) _ diff _ _
        · rw [if_neg hm]
          exact ⟨_, rfl⟩
      obtain ⟨Z, hZ⟩ := hu
      rw [hZ]
      exact normalizeForMatch_style_en cfg Z
  rw [htok, hsubj]
  refine hpass _ ?_
  rw [hstyle]
  exact hs1

/-- C1 witness: for a diff touching `src/auth/login.ts`, whose basename
normalizes to `login ts` (8 characters), the synthesized subject passes the
validator built from the same diff, here with the minimum subject length
300 so the expansion path is exercised. -/
theorem buildSpecificSubjectPre_passes_validator_witness :
    rankedFilesOf diffLogin = [fileLogin] ∧
    3 ≤ (normalizeForMatch (basePart fileLogin.path)).length ∧
    (matchRequiredTokens
      (buildSpecificSubjectPre .en diffLogin
        (buildRequiredTokens ((rankedFilesOf diffLogin).take 3)) 1 cfgI 300)
      (buildRequiredTokens ((rankedFilesOf diffLogin).take 3)) 1).ok = true :=
  ⟨rfl, by decide,
    buildSpecificSubjectPre_passes_validator .en diffLogin cfgI fileLogin [] 300
      rfl (by decide)⟩

set_option maxRecDepth 16384 in
/-- C1 counterexample, one concrete failure for each proviso of the
amendment, both at the pipeline's own derived parameters.  (i) A diff
touching only the file `ab` derives required count 1 and minimum 0, and its
single token `ab` normalizes to 2 characters, so the synthesized subject
`update ab` is rejected by the very validator the synthesis is meant to
satisfy.  (ii) An eleven-file diff derives required count 2 and minimum 300;
its top-ranked basename `login.ts` normalizes to 8 characters, yet every
other derived token (`ab`, `d1`, `d2`) normalizes below 3 characters, so at
most one token can ever match and the synthesized subject fails at count
2. -/
theorem buildSpecificSubjectPre_rejected_counterexample :
    rankedFilesOf diffAb = [fileAb] ∧
    (normalizeForMatch (basePart fileAb.path)).length = 2 ∧
    requiredTokenCountOf diffAb = 1 ∧
    minSubjectLengthOf diffAb = 0 ∧
    (matchRequiredTokens
      (buildSpecificSubjectPre .en diffAb
        (buildRequiredTokens ((rankedFilesOf diffAb).take 3))
        (requiredTokenCountOf diffAb) cfgI (minSubjectLengthOf diffAb))
      (buildRequiredTokens ((rankedFilesOf diffAb).take 3))
      (requiredTokenCountOf diffAb)).ok = false ∧
    requiredTokenCountOf diffEleven = 2 ∧
    minSubjectLengthOf diffEleven = 300 ∧
    ((rankedFilesOf diffEleven).map (fun f => f.path)).headD [] = str "login.ts" ∧
    3 ≤ (normalizeForMatch (basePart fileLoginTop.path)).length ∧
    (matchRequiredTokens
      (buildSpecificSubjectPre .en diffEleven
        (buildRequiredTokens ((rankedFilesOf diffEleven).take 3))
        (requiredTokenCountOf diffEleven) cfgI (minSubjectLengthOf diffEleven))
      (buildRequiredTokens ((rankedFilesOf diffEleven).take 3))
      (requiredTokenCountOf diffEleven)).ok = false := by
  refine ⟨rfl, by decide, by decide, by decide, by decide, by decide, by decide, by decide,
    by decide, by decide⟩
